import Mathlib

/-!
# Verification of the rgrr simulation core

A shallow embedding of the rgrr repository's simulation core
(`rgrr/fenwick_tree.py`, `rgrr/model.py`, `rgrr/simulator.py`,
`rgrr/operations.py`) together with proofs about the embedded definitions.

Conventions used throughout:

* Python integers are unbounded, so they are modelled as `Int`/`Nat`.
* The Fenwick array is numpy `int64`: an in-place `tree[i] += delta` stores
  the mathematical sum wrapped to the signed 64-bit range, modelled by
  `wrap64`.  (numpy additionally raises `OverflowError` when `delta` itself
  lies outside int64 — the one unfaithfulness of the total `addGo`; the
  theorems below either restrict deltas to int64 or, where relevant, state
  that restriction explicitly.)  Everything read back out of the array is
  accumulated in plain Python ints (`prefix_sum`'s `s`, `find_kth`'s `k`),
  which stay unbounded `Int`.  Theorems about Fenwick *content* therefore
  carry explicit no-overflow hypotheses, phrased via `absSum` (the sum of
  the absolute weights bounds every range sum an entry can hold).
* Python's `int()` conversion truncates toward zero; it is modelled with
  `Int.tdiv` on exact rationals (tax rates are modelled as `ℚ`).
* Python's global `random` module is modelled as an explicitly threaded
  deterministic generator state (`Nat`): `random.seed` installs a state
  derived from the seed, `random.randint` advances the state.  The concrete
  generator is a stand-in for the Mersenne Twister; every property proved
  here depends only on the generator being a deterministic function of its
  state, which is also true of the real one.
* `while` loops are translated into structurally recursive functions with an
  explicit fuel argument large enough (provably) to never be exhausted, so
  that all definitions compute by kernel reduction.
-/

/-! ## Least set bit

`i & (-i)` on a positive Python integer (two's-complement semantics on
unbounded ints) extracts the least set bit of `i`, i.e. `i - (i & (i-1))`.
We define it that way on `Nat`; for `i = 0` it yields `0`.
-/

/-- The least set bit of `j` (the value of Python's `j & (-j)` for `j > 0`). -/
def lowbit (j : Nat) : Nat := j - (j &&& (j - 1))

theorem lowbit_zero : lowbit 0 = 0 := by decide

theorem land_le_left (a b : Nat) : a &&& b ≤ a := by
  have := @Nat.and_le_left a b
  exact this

/-- Bitwise fact: `(2*m+1) &&& (2*m) = 2*m`. -/
theorem land_two_mul_add_one (m : Nat) : (2 * m + 1) &&& (2 * m) = 2 * m := by
  apply Nat.eq_of_testBit_eq
  intro i
  cases i with
  | zero =>
      rw [Nat.testBit_land, Nat.testBit_zero, Nat.testBit_zero]
      simp [Nat.add_mul_mod_self_left, Nat.mul_add_mod]
  | succ i =>
      rw [Nat.testBit_land, Nat.testBit_succ, Nat.testBit_succ]
      have h1 : (2 * m + 1) / 2 = m := by omega
      have h2 : (2 * m) / 2 = m := by omega
      rw [h1, h2, Bool.and_self]

/-- Bitwise fact: `(2*m) &&& (2*m - 1) = 2 * (m &&& (m - 1))` (also for `m = 0`). -/
theorem land_two_mul_sub_one (m : Nat) : (2 * m) &&& (2 * m - 1) = 2 * (m &&& (m - 1)) := by
  rcases Nat.eq_zero_or_pos m with h0 | h1
  · subst h0; decide
  · apply Nat.eq_of_testBit_eq
    intro i
    cases i with
    | zero =>
        rw [Nat.testBit_land, Nat.testBit_zero, Nat.testBit_zero, Nat.testBit_zero]
        have hA : (2 * m) % 2 = 0 := Nat.mul_mod_right 2 m
        have hB : (2 * (m &&& (m - 1))) % 2 = 0 := Nat.mul_mod_right 2 _
        simp [hA, hB]
    | succ i =>
        rw [Nat.testBit_land, Nat.testBit_succ, Nat.testBit_succ, Nat.testBit_succ]
        have e1 : (2 * m) / 2 = m := by omega
        have e2 : (2 * m - 1) / 2 = m - 1 := by omega
        have e3 : (2 * (m &&& (m - 1))) / 2 = m &&& (m - 1) := by omega
        rw [e1, e2, e3]
        exact (Nat.testBit_land m (m - 1) i).symm

theorem lowbit_odd (m : Nat) : lowbit (2 * m + 1) = 1 := by
  unfold lowbit
  have h : 2 * m + 1 - 1 = 2 * m := by omega
  rw [h, land_two_mul_add_one]
  omega

theorem lowbit_even (m : Nat) : lowbit (2 * m) = 2 * lowbit m := by
  unfold lowbit
  rw [land_two_mul_sub_one]
  have h := land_le_left m (m - 1)
  omega

/-- `lowbit ((2*s+1) * 2^a) = 2^a`. -/
theorem lowbit_odd_mul_two_pow (a s : Nat) : lowbit ((2 * s + 1) * 2 ^ a) = 2 ^ a := by
  induction a with
  | zero => simpa using lowbit_odd s
  | succ a ih =>
      have h : (2 * s + 1) * 2 ^ (a + 1) = 2 * ((2 * s + 1) * 2 ^ a) := by ring
      rw [h, lowbit_even, ih, pow_succ]
      ring

/-- Every positive natural decomposes as (odd) · 2^a. -/
theorem exists_odd_decomp (j : Nat) (hj : 1 ≤ j) : ∃ a s, j = (2 * s + 1) * 2 ^ a := by
  induction j using Nat.strong_induction_on with
  | _ j ih =>
      rcases Nat.even_or_odd j with he | ho
      · obtain ⟨m, hm⟩ := he
        have hm2 : j = 2 * m := by omega
        have hm1 : 1 ≤ m := by omega
        obtain ⟨a, s, hs⟩ := ih m (by omega) hm1
        exact ⟨a + 1, s, by rw [hm2, hs]; ring⟩
      · obtain ⟨m, hm⟩ := ho
        exact ⟨0, m, by omega⟩

theorem lowbit_pos (j : Nat) (hj : 1 ≤ j) : 1 ≤ lowbit j := by
  obtain ⟨a, s, hs⟩ := exists_odd_decomp j hj
  rw [hs, lowbit_odd_mul_two_pow]
  exact Nat.one_le_two_pow

theorem lowbit_le (j : Nat) : lowbit j ≤ j := by
  unfold lowbit
  omega

theorem sub_lowbit_lt (j : Nat) (hj : 1 ≤ j) : j - lowbit j < j := by
  have h1 := lowbit_pos j hj
  have h2 := lowbit_le j
  omega

/-- `2 · lowbit j` divides `j - lowbit j`. -/
theorem two_lowbit_dvd_sub (j : Nat) : 2 * lowbit j ∣ (j - lowbit j) := by
  rcases Nat.eq_zero_or_pos j with h0 | hp
  · subst h0; simp [lowbit_zero]
  · obtain ⟨a, s, hs⟩ := exists_odd_decomp j hp
    rw [hs, lowbit_odd_mul_two_pow]
    refine ⟨s, ?_⟩
    have h : (2 * s + 1) * 2 ^ a - 2 ^ a = 2 * s * 2 ^ a := by
      have : (2 * s + 1) * 2 ^ a = 2 * s * 2 ^ a + 2 ^ a := by ring
      omega
    rw [h]; ring

/-- For positive `j`, a power of two divides `j` iff it divides `lowbit j`. -/
theorem pow_two_dvd_iff_dvd_lowbit (j t : Nat) (hj : 1 ≤ j) :
    2 ^ t ∣ j ↔ 2 ^ t ∣ lowbit j := by
  obtain ⟨a, s, hs⟩ := exists_odd_decomp j hj
  rw [hs, lowbit_odd_mul_two_pow]
  constructor
  · intro h
    have hc : Nat.Coprime (2 ^ t) (2 * s + 1) := by
      apply Nat.Coprime.pow_left
      rw [Nat.coprime_two_left]
      exact ⟨s, by omega⟩
    exact hc.dvd_of_dvd_mul_left h
  · intro h
    exact h.trans (Dvd.intro_left _ rfl)

/-- Adding a multiple of `2^a` does not change the least set bit of `r < 2^a`. -/
theorem lowbit_add_multiple (a : Nat) : ∀ j0 r : Nat, 2 ^ a ∣ j0 → 1 ≤ r → r < 2 ^ a →
    lowbit (j0 + r) = lowbit r := by
  induction a with
  | zero => intro j0 r _ h1 h2; omega
  | succ a ih =>
      intro j0 r hdvd h1 h2
      obtain ⟨c, hc⟩ := hdvd
      rcases Nat.even_or_odd r with he | ho
      · obtain ⟨m, hm⟩ := he
        have hr : r = 2 * m := by omega
        have hm1 : 1 ≤ m := by omega
        have hm2 : m < 2 ^ a := by
          have : 2 ^ (a + 1) = 2 * 2 ^ a := by ring
          omega
        have hstep : j0 + r = 2 * (2 ^ a * c + m) := by
          rw [hc, hr]; ring
        rw [hstep, lowbit_even, hr, lowbit_even]
        have := ih (2 ^ a * c) m ⟨c, rfl⟩ hm1 hm2
        rw [this]
      · obtain ⟨m, hm⟩ := ho
        have hr : r = 2 * m + 1 := by omega
        have hstep : j0 + r = 2 * (2 ^ a * c + m) + 1 := by
          rw [hc, hr]; ring
        rw [hstep, lowbit_odd, hr, lowbit_odd]

/-- If `2^(e+1) ∣ i` then `lowbit (i + 2^e) = 2^e`. -/
theorem lowbit_add_pow (e i : Nat) (h : 2 ^ (e + 1) ∣ i) : lowbit (i + 2 ^ e) = 2 ^ e := by
  rcases Nat.eq_zero_or_pos i with h0 | hp
  · subst h0
    simpa using lowbit_odd_mul_two_pow e 0
  · have hlt : 2 ^ e < 2 ^ (e + 1) := by
      have he : 2 ^ (e + 1) = 2 * 2 ^ e := by ring
      have h1 : 1 ≤ 2 ^ e := Nat.one_le_two_pow
      omega
    have h2 : lowbit (i + 2 ^ e) = lowbit (2 ^ e) :=
      lowbit_add_multiple (e + 1) i (2 ^ e) h Nat.one_le_two_pow hlt
    rw [h2]
    simpa using lowbit_odd_mul_two_pow e 0

/-- Ascent-chain exclusion: once the update chain has passed `j0 + lowbit j0`,
no later chain position `j` has `j - lowbit j` inside `[j0, j0 + lowbit j0)`. -/
theorem chain_exclusion (j0 j : Nat) (hj0 : 1 ≤ j0) (hstep : j0 + lowbit j0 ≤ j) :
    ¬ (j0 ≤ j - lowbit j ∧ j - lowbit j < j0 + lowbit j0) := by
  rintro ⟨hge, hlt⟩
  obtain ⟨a, s, hs⟩ := exists_odd_decomp j0 hj0
  have hlb0 : lowbit j0 = 2 ^ a := by rw [hs]; exact lowbit_odd_mul_two_pow a s
  have hj1 : 1 ≤ j := by
    have := lowbit_pos j0 hj0
    omega
  obtain ⟨b, u, hu⟩ := exists_odd_decomp j hj1
  have hlbj : lowbit j = 2 ^ b := by rw [hu]; exact lowbit_odd_mul_two_pow b u
  have hlbj_le : lowbit j ≤ j := lowbit_le j
  have hdvd : 2 * lowbit j ∣ (j - lowbit j) := two_lowbit_dvd_sub j
  have hdvd2 : 2 ^ (b + 1) ∣ (j - lowbit j) := by
    have h2 : 2 * lowbit j = 2 ^ (b + 1) := by rw [hlbj]; ring
    rw [← h2]; exact hdvd
  rcases Nat.eq_or_lt_of_le hge with heq | hgt
  · -- j - lowbit j = j0
    have hdj0 : 2 ^ (b + 1) ∣ j0 := by rw [heq]; exact hdvd2
    have hdl : 2 ^ (b + 1) ∣ lowbit j0 := (pow_two_dvd_iff_dvd_lowbit j0 (b + 1) hj0).mp hdj0
    rw [hlb0] at hdl
    have hba : b + 1 ≤ a := (Nat.pow_dvd_pow_iff_le_right (by norm_num)).mp hdl
    have hblt : 2 ^ b < 2 ^ a := by
      calc 2 ^ b < 2 ^ (b + 1) := by
              have h2 : 2 ^ (b + 1) = 2 * 2 ^ b := by ring
              have h3 : 1 ≤ 2 ^ b := Nat.one_le_two_pow
              omega
        _ ≤ 2 ^ a := Nat.pow_le_pow_right (by norm_num) hba
    rw [hlb0] at hstep
    rw [hlbj] at heq hlbj_le
    omega
  · -- j - lowbit j = j0 + r with 1 ≤ r < 2^a
    set r := j - lowbit j - j0 with hr
    have hr1 : 1 ≤ r := by omega
    rw [hlb0] at hlt hstep
    have hr2 : r < 2 ^ a := by omega
    have hsplit : j - lowbit j = j0 + r := by omega
    have hdvdj0 : 2 ^ a ∣ j0 := by rw [hs]; exact Dvd.intro_left _ rfl
    have hlbr : lowbit (j0 + r) = lowbit r := lowbit_add_multiple a j0 r hdvdj0 hr1 hr2
    obtain ⟨c, w, hw⟩ := exists_odd_decomp r hr1
    have hlbrc : lowbit r = 2 ^ c := by rw [hw]; exact lowbit_odd_mul_two_pow c w
    have hdlr : 2 ^ (b + 1) ∣ lowbit (j0 + r) := by
      rw [← hsplit] at *
      exact (pow_two_dvd_iff_dvd_lowbit (j - lowbit j) (b + 1) (by omega)).mp hdvd2
    rw [hlbr, hlbrc] at hdlr
    have hbc : b + 1 ≤ c := (Nat.pow_dvd_pow_iff_le_right (by norm_num)).mp hdlr
    have hcr : 2 ^ c ≤ r := by
      rw [hw]
      calc 2 ^ c = 1 * 2 ^ c := by ring
        _ ≤ (2 * w + 1) * 2 ^ c := Nat.mul_le_mul_right _ (by omega)
    have hca : c < a := by
      by_contra hca
      have : 2 ^ a ≤ 2 ^ c := Nat.pow_le_pow_right (by norm_num) (by omega)
      omega
    -- r is a multiple of 2^c strictly below 2^a, so r + 2^c ≤ 2^a
    have hrc : r + 2 ^ c ≤ 2 ^ a := by
      have hsplit2 : 2 ^ a = 2 ^ (a - c) * 2 ^ c := by
        rw [← pow_add]
        congr 1
        omega
      have hwlt : 2 * w + 1 < 2 ^ (a - c) := by
        have := hr2
        rw [hw, hsplit2] at this
        exact Nat.lt_of_mul_lt_mul_right this
      calc r + 2 ^ c = (2 * w + 1 + 1) * 2 ^ c := by rw [hw]; ring
        _ ≤ 2 ^ (a - c) * 2 ^ c := Nat.mul_le_mul_right _ (by omega)
        _ = 2 ^ a := hsplit2.symm
    have hblc : 2 ^ b < 2 ^ c := by
      calc 2 ^ b < 2 ^ (b + 1) := by
              have h2 : 2 ^ (b + 1) = 2 * 2 ^ b := by ring
              have h3 : 1 ≤ 2 ^ b := Nat.one_le_two_pow
              omega
        _ ≤ 2 ^ c := Nat.pow_le_pow_right (by norm_num) hbc
    rw [hlbj] at hsplit hlbj_le
    omega

/-- Ascent-chain extension: if `j` is past `j0` and its covered range reaches
below `j0`, the chain's next stop `j0 + lowbit j0` is still at or before `j`. -/
theorem chain_extension (j0 j : Nat) (hj0 : 1 ≤ j0) (hj : j0 < j)
    (hcov : j - lowbit j < j0) : j0 + lowbit j0 ≤ j := by
  by_contra hcon
  obtain ⟨a, s, hs⟩ := exists_odd_decomp j0 hj0
  have hlb0 : lowbit j0 = 2 ^ a := by rw [hs]; exact lowbit_odd_mul_two_pow a s
  set r := j - j0 with hr
  have hr1 : 1 ≤ r := by omega
  have hr2 : r < 2 ^ a := by rw [hlb0] at hcon; omega
  have hdvdj0 : 2 ^ a ∣ j0 := by rw [hs]; exact Dvd.intro_left _ rfl
  have hsplit : j = j0 + r := by omega
  have hlbr : lowbit j = lowbit r := by rw [hsplit]; exact lowbit_add_multiple a j0 r hdvdj0 hr1 hr2
  have hlbr_le : lowbit r ≤ r := lowbit_le r
  have hlbr_pos : 1 ≤ lowbit r := lowbit_pos r hr1
  omega

/-! ## FenwickTree (`rgrr/fenwick_tree.py`)

The class appears verbatim three times in the repository
(`fenwick_tree.py`, `model.py`, `simulator.py`); all copies are identical.
The numpy array `self.tree` of length `size + 1` is an `Array Int` whose
entries are kept wrapped to the signed 64-bit range by `wrap64`, matching
numpy's silent int64 wraparound on in-place addition.
-/

/-- Signed 64-bit wraparound: the value an `np.int64` cell holds after an
in-place addition whose mathematical result is `x`. -/
def wrap64 (x : Int) : Int := (x + 2 ^ 63) % 2 ^ 64 - 2 ^ 63

/-- Inside the representable range the wrap is the identity. -/
theorem wrap64_eq_self (x : Int) (h1 : -(2 ^ 63) ≤ x) (h2 : x < 2 ^ 63) :
    wrap64 x = x := by
  unfold wrap64
  rw [Int.emod_eq_of_lt (by omega) (by omega)]
  omega

/-- The Fenwick tree's state: the 1-indexed backing array `self.tree`. -/
structure FenwickTree where
  tree : Array Int
deriving DecidableEq, Repr

/-- `FenwickTree(size)`: `self.tree = np.zeros(size + 1)`. -/
def FenwickTree.create (size : Nat) : FenwickTree :=
  ⟨Array.mkArray (size + 1) 0⟩

/-- The loop of `FenwickTree.add`: `while i < len(self.tree): tree[i] += delta;
i += i & (-i)`.  `fuel` bounds the iteration count; since `i` strictly
increases while it stays below `t.size`, `t.size` iterations always suffice.
The in-place `+=` on an `np.int64` cell wraps to the signed 64-bit range
(`wrap64`); numpy would additionally raise `OverflowError` for a `delta`
outside int64 before touching the cell, a failure this total function does
not model (theorems that depend on it restrict `delta` accordingly). -/
def addGo (delta : Int) : Nat → Array Int → Nat → Array Int
  | 0, t, _ => t
  | fuel + 1, t, j =>
    if h : j < t.size then
      addGo delta fuel (t.set ⟨j, h⟩ (wrap64 (t.get ⟨j, h⟩ + delta))) (j + lowbit j)
    else t

/-- `FenwickTree.add(i, delta)` — add `delta` to element `i` (0-based outside,
1-based internally).  No range check: for `i + 1 ≥ len(tree)` the loop body
never runs and the array is returned unchanged. -/
def FenwickTree.add (t : FenwickTree) (i : Nat) (delta : Int) : FenwickTree :=
  ⟨addGo delta t.tree.size t.tree (i + 1)⟩

/-- The loop of `FenwickTree.prefix_sum`: `while i > 0: s += tree[i];
i -= i & (-i)`.  `j` strictly decreases, so `j + 1` iterations suffice. -/
def psumGo (t : Array Int) : Nat → Nat → Int
  | 0, _ => 0
  | fuel + 1, j => if j = 0 then 0 else t.getD j 0 + psumGo t fuel (j - lowbit j)

/-- `FenwickTree.prefix_sum(i)` — sum of elements `0..i` (0-based). -/
def FenwickTree.prefix_sum (t : FenwickTree) (i : Nat) : Int :=
  psumGo t.tree (i + 2) (i + 1)

/-- The loop of `FenwickTree.find_kth`: `while p > 0: ...; p >>= 1`.
`p` strictly decreases, so `p + 1` iterations always suffice. -/
def findGo (t : Array Int) : Nat → Nat → Int → Nat → Nat
  | 0, i, _, _ => i
  | fuel + 1, i, k, p =>
    if p = 0 then i
    else if i + p < t.size ∧ t.getD (i + p) 0 < k then
      findGo t fuel (i + p) (k - t.getD (i + p) 0) (p / 2)
    else findGo t fuel i k (p / 2)

/-- Python's `int.bit_length()` (for `n ≥ 1` it is `log2 n + 1`). -/
def pyBitLength (n : Nat) : Nat := if n = 0 then 0 else Nat.log2 n + 1

/-- `FenwickTree.find_kth(k)` — find the smallest index `i` such that
`prefix_sum(i) ≥ k`, starting the binary descent at
`p = 1 << (tree.size.bit_length() - 1)`. -/
def FenwickTree.find_kth (t : FenwickTree) (k : Int) : Nat :=
  findGo t.tree (2 ^ (pyBitLength t.tree.size - 1) + 1) 0 k
    (2 ^ (pyBitLength t.tree.size - 1))

/-- The spec (§4.1) names the point-update operation `update(index, delta)` and
asserts it can fail; in the source it is `FenwickTree.add`, which contains no
range check and raises nothing, so the result is always `ok`.  The explicit
error type exists only to make the spec's failure claim statable. -/
def FenwickTree.update (t : FenwickTree) (i : Nat) (delta : Int) :
    Except String FenwickTree :=
  Except.ok (t.add i delta)

/-! ## The abstraction relation

`csum ws j` is the sum of the first `j` weights (`ws.getD` returns `0` past
the end, so `csum` is constant from `ws.length` on).  `FenwickRepr t ws` says
array `t` is the Fenwick encoding of the weight list `ws`: entry `j`
(1-based) holds the range sum over weight indices `[j - lowbit j, j)`.
-/

/-- Sum of the first `j` entries of `ws` (0 past the end). -/
def csum (ws : List Int) : Nat → Int
  | 0 => 0
  | j + 1 => csum ws j + ws.getD j 0

/-- `t` is the Fenwick encoding of the weight list `ws`. -/
def FenwickRepr (t : Array Int) (ws : List Int) : Prop :=
  t.size = ws.length + 1 ∧
    ∀ j, 1 ≤ j → j ≤ ws.length → t.getD j 0 = csum ws j - csum ws (j - lowbit j)

theorem list_getD_nonneg (ws : List Int) (h : ∀ x ∈ ws, 0 ≤ x) (m : Nat) :
    0 ≤ ws.getD m 0 := by
  induction ws generalizing m with
  | nil => simp [List.getD]
  | cons x xs ih =>
      cases m with
      | zero => simpa using h x (by simp)
      | succ m =>
          simp only [List.getD_cons_succ]
          exact ih (fun y hy => h y (by simp [hy])) m

theorem csum_mono (ws : List Int) (h : ∀ x ∈ ws, 0 ≤ x) {m n : Nat} (hmn : m ≤ n) :
    csum ws m ≤ csum ws n := by
  induction n with
  | zero => simp_all
  | succ n ih =>
      rcases Nat.eq_or_lt_of_le hmn with he | hl
      · subst he; exact le_refl _
      · have h1 : csum ws m ≤ csum ws n := ih (by omega)
        have h2 : 0 ≤ ws.getD n 0 := list_getD_nonneg ws h n
        show csum ws m ≤ csum ws n + ws.getD n 0
        omega

theorem csum_beyond (ws : List Int) (n : Nat) (h : ws.length ≤ n) :
    csum ws n = csum ws ws.length := by
  induction n with
  | zero =>
      have h0 : ws.length = 0 := by omega
      rw [h0]
  | succ n ih =>
      rcases Nat.eq_or_lt_of_le h with he | hl
      · rw [he]
      · have h1 : ws.length ≤ n := by omega
        show csum ws n + ws.getD n 0 = csum ws ws.length
        rw [List.getD_eq_default ws 0 h1, ih h1]
        ring

theorem csum_cons (x : Int) (xs : List Int) (j : Nat) :
    csum (x :: xs) (j + 1) = x + csum xs j := by
  induction j with
  | zero => simp [csum, List.getD]
  | succ j ih =>
      show csum (x :: xs) (j + 1) + (x :: xs).getD (j + 1) 0 = x + (csum xs j + xs.getD j 0)
      rw [ih, List.getD_cons_succ]
      ring

theorem csum_length_eq_sum (ws : List Int) : csum ws ws.length = ws.sum := by
  induction ws with
  | nil => rfl
  | cons x xs ih =>
      show csum (x :: xs) (xs.length + 1) = (x :: xs).sum
      rw [csum_cons, ih, List.sum_cons]

theorem list_getD_set (ws : List Int) (i : Nat) (v : Int) (j : Nat) :
    (ws.set i v).getD j 0 = if i = j ∧ j < ws.length then v else ws.getD j 0 := by
  induction ws generalizing i j with
  | nil => simp [List.getD]
  | cons x xs ih =>
      cases i with
      | zero =>
          cases j with
          | zero => simp
          | succ j => simp [List.getD_cons_succ]
      | succ i =>
          cases j with
          | zero => simp
          | succ j =>
              simp only [List.set_cons_succ, List.getD_cons_succ, List.length_cons]
              rw [ih]
              have h : (i = j ∧ j < xs.length) ↔ (i + 1 = j + 1 ∧ j + 1 < xs.length + 1) := by
                omega
              by_cases hc : i = j ∧ j < xs.length
              · rw [if_pos hc, if_pos (h.mp hc)]
              · rw [if_neg hc, if_neg (fun hx => hc (h.mpr hx))]

theorem csum_set_add (ws : List Int) (i : Nat) (delta : Int) (hi : i < ws.length) (j : Nat) :
    csum (ws.set i (ws.getD i 0 + delta)) j = csum ws j + if i < j then delta else 0 := by
  induction j with
  | zero => simp [csum]
  | succ j ih =>
      show csum _ j + (ws.set i (ws.getD i 0 + delta)).getD j 0
          = csum ws j + ws.getD j 0 + _
      rw [ih, list_getD_set]
      by_cases hij : i = j
      · subst hij
        split_ifs <;> omega
      · have hne : ¬ (i = j ∧ j < ws.length) := fun hx => hij hx.1
        rw [if_neg hne]
        split_ifs <;> omega

/-- Sum of the absolute values of the weights: the int64 no-overflow budget.
Every Fenwick entry is a range sum of the weights, and every range sum is
bounded in absolute value by `absSum`, so `absSum ws < 2 ^ 63` guarantees no
entry of a tree representing `ws` wraps. -/
def absSum (ws : List Int) : Int := (ws.map (fun x => |x|)).sum

theorem getD_map_abs (ws : List Int) (j : Nat) :
    (ws.map (fun x => |x|)).getD j 0 = |ws.getD j 0| := by
  induction ws generalizing j with
  | nil => simp [List.getD]
  | cons x xs ih =>
      cases j with
      | zero => rfl
      | succ j =>
          simp only [List.map_cons, List.getD_cons_succ]
          exact ih j

theorem map_abs_nonneg (ws : List Int) : ∀ x ∈ ws.map (fun y => |y|), 0 ≤ x := by
  intro x hx
  obtain ⟨y, _, rfl⟩ := List.mem_map.mp hx
  exact abs_nonneg y

theorem csum_abs_nonneg (ws : List Int) (a : Nat) :
    0 ≤ csum (ws.map (fun x => |x|)) a :=
  csum_mono (ws.map (fun x => |x|)) (map_abs_nonneg ws) (Nat.zero_le a)

/-- Triangle inequality for weight-range sums against the absolute prefix. -/
theorem csum_sub_abs (ws : List Int) : ∀ a b : Nat, a ≤ b →
    |csum ws b - csum ws a|
      ≤ csum (ws.map (fun x => |x|)) b - csum (ws.map (fun x => |x|)) a := by
  intro a b
  induction b with
  | zero =>
      intro hab
      have ha : a = 0 := by omega
      subst ha
      simp
  | succ b ih =>
      intro hab
      rcases Nat.eq_or_lt_of_le hab with he | hl
      · subst he
        simp
      · have h1 := ih (by omega)
        have h2 : csum ws (b + 1) - csum ws a = (csum ws b - csum ws a) + ws.getD b 0 := by
          show csum ws b + ws.getD b 0 - csum ws a = _
          ring
        have h3 : |(csum ws b - csum ws a) + ws.getD b 0|
            ≤ |csum ws b - csum ws a| + |ws.getD b 0| := abs_add _ _
        have h4 : csum (ws.map (fun x => |x|)) (b + 1)
            = csum (ws.map (fun x => |x|)) b + |ws.getD b 0| := by
          show csum _ b + (ws.map (fun x => |x|)).getD b 0 = _
          rw [getD_map_abs]
        rw [h2, h4]
        omega

theorem csum_abs_le_absSum (ws : List Int) (b : Nat) :
    csum (ws.map (fun x => |x|)) b ≤ absSum ws := by
  by_cases hb : b ≤ (ws.map (fun x => |x|)).length
  · have h1 := csum_mono (ws.map (fun x => |x|)) (map_abs_nonneg ws) hb
    rw [csum_length_eq_sum] at h1
    exact h1
  · rw [csum_beyond (ws.map (fun x => |x|)) b (by omega), csum_length_eq_sum]
    exact le_refl _

/-- Every range sum of the weights is bounded by the absolute-sum budget. -/
theorem rangeSum_abs_le (ws : List Int) (a b : Nat) (hab : a ≤ b) :
    |csum ws b - csum ws a| ≤ absSum ws := by
  have h1 := csum_sub_abs ws a b hab
  have h2 := csum_abs_le_absSum ws b
  have h3 := csum_abs_nonneg ws a
  omega

/-- For nonnegative weights the budget is just the total weight. -/
theorem absSum_of_nonneg (ws : List Int) (h : ∀ x ∈ ws, 0 ≤ x) :
    absSum ws = ws.sum := by
  induction ws with
  | nil => rfl
  | cons x xs ih =>
      have hx : 0 ≤ x := h x (by simp)
      have hxs := ih (fun y hy => h y (by simp [hy]))
      show |x| + absSum xs = x + xs.sum
      rw [abs_of_nonneg hx, hxs]

theorem arr_getD_set (a : Array Int) (i : Fin a.size) (v : Int) (j : Nat) :
    (a.set i v).getD j 0 = if (i : Nat) = j then v else a.getD j 0 := by
  by_cases hj : j < a.size
  · have hj2 : j < (a.set i v).size := by rw [Array.size_set]; exact hj
    rw [Array.getD, dif_pos hj2, Array.getD, dif_pos hj, Array.get_eq_getElem,
      Array.get_eq_getElem, Array.get_set a i j hj v]
  · have hj2 : ¬ j < (a.set i v).size := by rw [Array.size_set]; exact hj
    rw [Array.getD, dif_neg hj2, Array.getD, dif_neg hj]
    have hij : ¬ (i : Nat) = j := by have := i.isLt; omega
    rw [if_neg hij]

theorem arr_getD_mkArray (n : Nat) (j : Nat) : (Array.mkArray n (0 : Int)).getD j 0 = 0 := by
  by_cases hj : j < (Array.mkArray n (0 : Int)).size
  · rw [Array.getD, dif_pos hj, Array.get_eq_getElem, Array.getElem_mkArray]
  · rw [Array.getD, dif_neg hj]

theorem addGo_size (delta : Int) : ∀ (fuel : Nat) (t : Array Int) (j : Nat),
    (addGo delta fuel t j).size = t.size := by
  intro fuel
  induction fuel with
  | zero => intro t j; rfl
  | succ fuel ih =>
      intro t j
      show (if h : j < t.size then _ else t).size = t.size
      split
      · rw [ih, Array.size_set]
      · rfl

/-- Entry-level effect of the `add` loop started at position `j0 ≥ 1`: entry
`j` is rewritten to the wrapped sum of its old value and `delta` exactly when
`j` is on the update chain of `j0`, i.e. `j0 ≤ j < size` and the range covered
by `j` reaches down past `j0`; every entry is touched at most once. -/
theorem addGo_getD (delta : Int) : ∀ (fuel : Nat) (t : Array Int) (j0 : Nat),
    1 ≤ j0 → t.size ≤ j0 + fuel → ∀ j,
    (addGo delta fuel t j0).getD j 0
      = if j0 ≤ j ∧ j < t.size ∧ j - lowbit j < j0
          then wrap64 (t.getD j 0 + delta) else t.getD j 0 := by
  intro fuel
  induction fuel with
  | zero =>
      intro t j0 hj0 hfuel j
      have hcond : ¬ (j0 ≤ j ∧ j < t.size ∧ j - lowbit j < j0) := by omega
      rw [if_neg hcond]
      rfl
  | succ fuel ih =>
      intro t j0 hj0 hfuel j
      show (if h : j0 < t.size then _ else t).getD j 0 = _
      split
      case isFalse h =>
        have hcond : ¬ (j0 ≤ j ∧ j < t.size ∧ j - lowbit j < j0) := by omega
        rw [if_neg hcond]
      case isTrue h =>
        have hlb := lowbit_pos j0 hj0
        have hsz : (t.set ⟨j0, h⟩ (wrap64 (t.get ⟨j0, h⟩ + delta))).size = t.size :=
          Array.size_set ..
        rw [ih _ (j0 + lowbit j0) (by omega) (by rw [hsz]; omega) j]
        rw [arr_getD_set, hsz]
        by_cases hjj : j0 = j
        · subst hjj
          have hc1 : ¬ (j0 + lowbit j0 ≤ j0 ∧ j0 < t.size ∧ j0 - lowbit j0 < j0 + lowbit j0) := by
            omega
          have hc2 : j0 ≤ j0 ∧ j0 < t.size ∧ j0 - lowbit j0 < j0 :=
            ⟨le_refl _, h, sub_lowbit_lt j0 hj0⟩
          rw [if_pos rfl, if_neg hc1, if_pos hc2]
          have hget : t.get ⟨j0, h⟩ = t.getD j0 0 := by
            rw [Array.getD, dif_pos h]
          rw [hget]
        · rw [if_neg hjj]
          have hiff : (j0 + lowbit j0 ≤ j ∧ j < t.size ∧ j - lowbit j < j0 + lowbit j0)
              ↔ (j0 ≤ j ∧ j < t.size ∧ j - lowbit j < j0) := by
            constructor
            · rintro ⟨h1, h2, h3⟩
              refine ⟨by omega, h2, ?_⟩
              have hex := chain_exclusion j0 j hj0 h1
              omega
            · rintro ⟨h1, h2, h3⟩
              have hgt : j0 < j := by omega
              have hext := chain_extension j0 j hj0 hgt h3
              exact ⟨hext, h2, by omega⟩
          by_cases hc : j0 ≤ j ∧ j < t.size ∧ j - lowbit j < j0
          · rw [if_pos hc, if_pos (hiff.mpr hc)]
          · rw [if_neg hc, if_neg (fun hx => hc (hiff.mp hx))]

/-- `FenwickTree.add` preserves the abstraction relation, updating weight `i`,
as long as the updated weight list stays inside the int64 budget (so the one
rewritten cell per chain entry does not wrap).  Without the budget hypothesis
the conclusion is false on the embedded int64 semantics, and on the program:
`claim_C4_counterexample` below exhibits a wrapped entry. -/
theorem repr_add (t : FenwickTree) (ws : List Int) (h : FenwickRepr t.tree ws)
    (i : Nat) (hi : i < ws.length) (delta : Int)
    (hb : absSum (ws.set i (ws.getD i 0 + delta)) < 2 ^ 63) :
    FenwickRepr (t.add i delta).tree (ws.set i (ws.getD i 0 + delta)) := by
  obtain ⟨hsize, hentry⟩ := h
  constructor
  · show (addGo delta t.tree.size t.tree (i + 1)).size = _
    rw [addGo_size, hsize, List.length_set]
  · intro j hj1 hj2
    rw [List.length_set] at hj2
    show (addGo delta t.tree.size t.tree (i + 1)).getD j 0 = _
    rw [addGo_getD delta t.tree.size t.tree (i + 1) (by omega) (by omega) j]
    rw [hentry j hj1 hj2]
    rw [csum_set_add ws i delta hi j, csum_set_add ws i delta hi (j - lowbit j)]
    have hjsz : j < t.tree.size := by omega
    have hlbj : j - lowbit j ≤ j := by omega
    by_cases h1 : i < j
    · by_cases h2 : i < j - lowbit j
      · have hc : ¬ (i + 1 ≤ j ∧ j < t.tree.size ∧ j - lowbit j < i + 1) := by omega
        rw [if_neg hc, if_pos h1, if_pos h2]
        ring
      · have hc : i + 1 ≤ j ∧ j < t.tree.size ∧ j - lowbit j < i + 1 := by omega
        rw [if_pos hc, if_pos h1, if_neg h2]
        have hr := rangeSum_abs_le (ws.set i (ws.getD i 0 + delta)) (j - lowbit j) j hlbj
        rw [csum_set_add ws i delta hi j, csum_set_add ws i delta hi (j - lowbit j),
          if_pos h1, if_neg h2] at hr
        obtain ⟨hlo, hhi⟩ := abs_lt.mp (lt_of_le_of_lt hr hb)
        have hw := wrap64_eq_self (csum ws j - csum ws (j - lowbit j) + delta)
          (by omega) (by omega)
        rw [hw]
        ring
    · have hc : ¬ (i + 1 ≤ j ∧ j < t.tree.size ∧ j - lowbit j < i + 1) := by omega
      rw [if_neg hc, if_neg h1, if_neg (by omega)]
      ring

/-- The `prefix_sum` descent computes `csum ws j` under the abstraction. -/
theorem psumGo_repr (t : Array Int) (ws : List Int) (h : FenwickRepr t ws) :
    ∀ (fuel j : Nat), j < fuel → j ≤ ws.length → psumGo t fuel j = csum ws j := by
  intro fuel
  induction fuel with
  | zero => intro j hj _; omega
  | succ fuel ih =>
      intro j hj hlen
      rcases Nat.eq_zero_or_pos j with h0 | h1
      · subst h0
        rfl
      · show (if j = 0 then 0 else t.getD j 0 + psumGo t fuel (j - lowbit j)) = csum ws j
        rw [if_neg (by omega)]
        have hsub := sub_lowbit_lt j h1
        rw [ih (j - lowbit j) (by omega) (by omega)]
        rw [h.2 j h1 hlen]
        ring

/-- Correctness of `FenwickTree.prefix_sum` relative to the weight list:
the query over `[0, i]` returns the sum of weights `0..i`. -/
theorem prefix_sum_repr (t : FenwickTree) (ws : List Int) (h : FenwickRepr t.tree ws)
    (i : Nat) (hi : i < ws.length) : t.prefix_sum i = csum ws (i + 1) :=
  psumGo_repr t.tree ws h (i + 2) (i + 1) (by omega) (by omega)

/-! ## Building a tree from a weight list

`Simulator.__init__` builds the tree with
`for i, node in enumerate(nodes): tree.add(i, node.resources)` starting from
`FenwickTree(len(nodes))`; `buildFenwick` is that loop over an arbitrary
weight list.  `padTake ws m` is the weight list after the first `m`
iterations: the first `m` weights of `ws` followed by zeros.
-/

/-- `ws` with every entry from position `m` on replaced by `0`. -/
def padTake : List Int → Nat → List Int
  | [], _ => []
  | _ :: xs, 0 => 0 :: padTake xs 0
  | x :: xs, m + 1 => x :: padTake xs m

/-- The Fenwick tree of a weight list, built exactly as `Simulator.__init__`
builds it from the node balances. -/
def buildFenwick (ws : List Int) : FenwickTree :=
  (List.range ws.length).foldl (fun t i => t.add i (ws.getD i 0)) (FenwickTree.create ws.length)

theorem padTake_length (ws : List Int) : ∀ m, (padTake ws m).length = ws.length := by
  induction ws with
  | nil => intro m; rfl
  | cons x xs ih =>
      intro m
      cases m with
      | zero => show (0 :: padTake xs 0).length = _; simp [ih]
      | succ m => show (x :: padTake xs m).length = _; simp [ih]

theorem padTake_zero_getD (ws : List Int) : ∀ j, (padTake ws 0).getD j 0 = 0 := by
  induction ws with
  | nil => intro j; simp [padTake, List.getD]
  | cons x xs ih =>
      intro j
      show (0 :: padTake xs 0).getD j 0 = 0
      cases j with
      | zero => rfl
      | succ j => rw [List.getD_cons_succ]; exact ih j

theorem padTake_getD_self (ws : List Int) : ∀ m, m < ws.length → (padTake ws m).getD m 0 = 0 := by
  induction ws with
  | nil => intro m hm; simp at hm
  | cons x xs ih =>
      intro m hm
      cases m with
      | zero => rfl
      | succ m =>
          show (x :: padTake xs m).getD (m + 1) 0 = 0
          rw [List.getD_cons_succ]
          exact ih m (by simpa using hm)

theorem padTake_set (ws : List Int) : ∀ m, m < ws.length →
    (padTake ws m).set m (ws.getD m 0) = padTake ws (m + 1) := by
  induction ws with
  | nil => intro m hm; simp at hm
  | cons x xs ih =>
      intro m hm
      cases m with
      | zero => rfl
      | succ m =>
          show (x :: padTake xs m).set (m + 1) ((x :: xs).getD (m + 1) 0) = x :: padTake xs (m + 1)
          rw [List.getD_cons_succ, List.set_cons_succ, ih m (by simpa using hm)]

theorem padTake_full (ws : List Int) : padTake ws ws.length = ws := by
  induction ws with
  | nil => rfl
  | cons x xs ih => show x :: padTake xs xs.length = x :: xs; rw [ih]

/-- Zeroing a suffix can only shrink the int64 budget. -/
theorem absSum_padTake_le (ws : List Int) : ∀ m, absSum (padTake ws m) ≤ absSum ws := by
  induction ws with
  | nil => intro m; exact le_refl _
  | cons x xs ih =>
      intro m
      cases m with
      | zero =>
          show |(0 : Int)| + absSum (padTake xs 0) ≤ |x| + absSum xs
          have h1 := ih 0
          have h2 : (0 : Int) ≤ |x| := abs_nonneg x
          have h3 : |(0 : Int)| = 0 := abs_zero
          omega
      | succ m =>
          show |x| + absSum (padTake xs m) ≤ |x| + absSum xs
          have h1 := ih m
          omega

theorem csum_padTake_zero (ws : List Int) : ∀ j, csum (padTake ws 0) j = 0 := by
  intro j
  induction j with
  | zero => rfl
  | succ j ih =>
      show csum (padTake ws 0) j + (padTake ws 0).getD j 0 = 0
      rw [ih, padTake_zero_getD]
      ring

theorem repr_create (n : Nat) : FenwickRepr (FenwickTree.create n).tree (padTake (List.replicate n (0 : Int)) 0) := by
  constructor
  · show (Array.mkArray (n + 1) (0 : Int)).size = _
    rw [Array.size_mkArray, padTake_length, List.length_replicate]
  · intro j _ _
    show (Array.mkArray (n + 1) (0 : Int)).getD j 0 = _
    rw [arr_getD_mkArray, csum_padTake_zero, csum_padTake_zero]
    ring

theorem buildFenwick_repr_aux (ws : List Int) (hball : absSum ws < 2 ^ 63) :
    ∀ m, m ≤ ws.length →
    FenwickRepr ((List.range m).foldl (fun t i => t.add i (ws.getD i 0))
      (FenwickTree.create ws.length)).tree (padTake ws m) := by
  intro m
  induction m with
  | zero =>
      intro _
      have h := repr_create ws.length
      have he : padTake (List.replicate ws.length (0 : Int)) 0 = padTake ws 0 := by
        apply List.ext_getElem
        · rw [padTake_length, padTake_length, List.length_replicate]
        · intro i h1 h2
          have g1 : (padTake (List.replicate ws.length (0:Int)) 0).getD i 0 = 0 := padTake_zero_getD _ i
          have g2 : (padTake ws 0).getD i 0 = 0 := padTake_zero_getD _ i
          rw [List.getD_eq_getElem _ _ h1] at g1
          rw [List.getD_eq_getElem _ _ h2] at g2
          rw [g1, g2]
      rwa [he] at h
  | succ m ih =>
      intro hm
      rw [List.range_succ, List.foldl_append]
      have hmlt : m < ws.length := by omega
      have hprev := ih (by omega)
      have hset : (padTake ws m).set m ((padTake ws m).getD m 0 + ws.getD m 0)
          = padTake ws (m + 1) := by
        rw [padTake_getD_self ws m hmlt, zero_add, padTake_set ws m hmlt]
      have hbound : absSum ((padTake ws m).set m ((padTake ws m).getD m 0 + ws.getD m 0))
          < 2 ^ 63 := by
        rw [hset]
        exact lt_of_le_of_lt (absSum_padTake_le ws (m + 1)) hball
      have hstep := repr_add _ (padTake ws m) hprev m
        (by rw [padTake_length]; exact hmlt) (ws.getD m 0) hbound
      rwa [hset] at hstep

/-- The tree built from `ws` represents `ws`, provided `ws` fits the int64
budget — in the source the build is a sequence of in-range `add` calls, so
each intermediate tree holds range sums of a prefix of `ws`, all within
int64 when `absSum ws < 2 ^ 63`. -/
theorem buildFenwick_repr (ws : List Int) (hball : absSum ws < 2 ^ 63) :
    FenwickRepr (buildFenwick ws).tree ws := by
  have h := buildFenwick_repr_aux ws hball ws.length (le_refl _)
  rwa [padTake_full] at h

theorem findGo_zero_p (t : Array Int) (fuel i : Nat) (k : Int) (hf : 1 ≤ fuel) :
    findGo t fuel i k 0 = i := by
  cases fuel with
  | zero => omega
  | succ fuel => simp [findGo]

theorem csum_lt_length (ws : List Int) (k : Int) (r : Nat)
    (hkN : k ≤ csum ws ws.length) (hr : csum ws r < k) : r < ws.length := by
  by_contra hc
  have h := csum_beyond ws r (by omega)
  omega

/-- Invariant of the `find_kth` binary descent: starting at a position `i`
divisible by `2^(e+1)` whose prefix sum is still below `k`, with the target
known to lie within the next `2^(e+1)` weights, the loop returns the unique
position whose prefix sum is below `k` but reaches `k` one step later. -/
theorem findGo_spec (t : Array Int) (ws : List Int) (h : FenwickRepr t ws)
    (k : Int) (hkN : k ≤ csum ws ws.length) :
    ∀ (e i fuel : Nat), e + 2 ≤ fuel → 2 ^ (e + 1) ∣ i →
      csum ws i < k → k ≤ csum ws (i + 2 ^ (e + 1)) →
      csum ws (findGo t fuel i (k - csum ws i) (2 ^ e)) < k ∧
      k ≤ csum ws (findGo t fuel i (k - csum ws i) (2 ^ e) + 1) ∧
      findGo t fuel i (k - csum ws i) (2 ^ e) < ws.length := by
  intro e
  induction e with
  | zero =>
      intro i fuel hfuel hdvd hlow hhigh
      obtain ⟨fuel, rfl⟩ : ∃ f, fuel = f + 1 := ⟨fuel - 1, by omega⟩
      have hpow : (2 : Nat) ^ 0 = 1 := by norm_num
      rw [hpow] at *
      have hpow1 : (2 : Nat) ^ (0 + 1) = 2 := by norm_num
      rw [hpow1] at hhigh
      simp only [findGo]
      rw [if_neg (by omega)]
      by_cases hc : i + 1 < t.size ∧ t.getD (i + 1) 0 < k - csum ws i
      · rw [if_pos hc]
        have hjlen : i + 1 ≤ ws.length := by
          have := h.1
          omega
        have hentry : t.getD (i + 1) 0 = csum ws (i + 1) - csum ws i := by
          have he := h.2 (i + 1) (by omega) hjlen
          have hlb : lowbit (i + 1) = 1 := by
            have := lowbit_add_pow 0 i (by simpa using hdvd)
            simpa using this
          rw [he, hlb]
          congr 2
        have harg : k - csum ws i - t.getD (i + 1) 0 = k - csum ws (i + 1) := by
          rw [hentry]; ring
        rw [harg, findGo_zero_p t fuel (i + 1) _ (by omega)]
        have hlt : csum ws (i + 1) < k := by
          have := hc.2
          rw [hentry] at this
          omega
        exact ⟨hlt, by simpa using hhigh, csum_lt_length ws k (i + 1) hkN hlt⟩
      · rw [if_neg hc]
        rw [findGo_zero_p t fuel i _ (by omega)]
        have hup : k ≤ csum ws (i + 1) := by
          by_cases hsz : i + 1 < t.size
          · have hjlen : i + 1 ≤ ws.length := by
              have := h.1
              omega
            have hentry : t.getD (i + 1) 0 = csum ws (i + 1) - csum ws i := by
              have he := h.2 (i + 1) (by omega) hjlen
              have hlb : lowbit (i + 1) = 1 := by
                have := lowbit_add_pow 0 i (by simpa using hdvd)
                simpa using this
              rw [he, hlb]
              congr 2
            have hkc : ¬ t.getD (i + 1) 0 < k - csum ws i := fun hx => hc ⟨hsz, hx⟩
            rw [hentry] at hkc
            omega
          · have hlen : ws.length ≤ i + 1 := by
              have := h.1
              omega
            have := csum_beyond ws (i + 1) hlen
            omega
        exact ⟨hlow, hup, csum_lt_length ws k i hkN hlow⟩
  | succ e ih =>
      intro i fuel hfuel hdvd hlow hhigh
      obtain ⟨fuel, rfl⟩ : ∃ f, fuel = f + 1 := ⟨fuel - 1, by omega⟩
      simp only [findGo]
      rw [if_neg (Nat.pos_iff_ne_zero.mp (Nat.pos_pow_of_pos _ (by norm_num)))]
      have hdiv2 : 2 ^ (e + 1) / 2 = 2 ^ e := by
        rw [pow_succ]
        exact Nat.mul_div_cancel _ (by norm_num)
      have hdvd1 : 2 ^ (e + 1) ∣ i := (pow_dvd_pow 2 (by omega)).trans hdvd
      by_cases hc : i + 2 ^ (e + 1) < t.size ∧ t.getD (i + 2 ^ (e + 1)) 0 < k - csum ws i
      · rw [if_pos hc]
        have hjlen : i + 2 ^ (e + 1) ≤ ws.length := by
          have := h.1
          omega
        have hentry : t.getD (i + 2 ^ (e + 1)) 0
            = csum ws (i + 2 ^ (e + 1)) - csum ws i := by
          have he := h.2 (i + 2 ^ (e + 1)) (by have := Nat.one_le_two_pow (n := e + 1); omega) hjlen
          have hlb : lowbit (i + 2 ^ (e + 1)) = 2 ^ (e + 1) := lowbit_add_pow (e + 1) i hdvd
          rw [he, hlb]
          congr 2
          omega
        have harg : k - csum ws i - t.getD (i + 2 ^ (e + 1)) 0
            = k - csum ws (i + 2 ^ (e + 1)) := by
          rw [hentry]; ring
        rw [harg, hdiv2]
        have hlt : csum ws (i + 2 ^ (e + 1)) < k := by
          have := hc.2
          rw [hentry] at this
          omega
        have hdvd2 : 2 ^ (e + 1) ∣ i + 2 ^ (e + 1) := Dvd.dvd.add hdvd1 dvd_rfl
        have hhigh2 : k ≤ csum ws (i + 2 ^ (e + 1) + 2 ^ (e + 1)) := by
          have hpp : i + 2 ^ (e + 1) + 2 ^ (e + 1) = i + 2 ^ (e + 1 + 1) := by
            have hx : (2 : Nat) ^ (e + 1 + 1) = 2 ^ (e + 1) + 2 ^ (e + 1) := by
              rw [pow_succ]; ring
            omega
          rw [hpp]
          exact hhigh
        exact ih (i + 2 ^ (e + 1)) fuel (by omega) hdvd2 hlt hhigh2
      · rw [if_neg hc, hdiv2]
        have hhigh1 : k ≤ csum ws (i + 2 ^ (e + 1)) := by
          by_cases hsz : i + 2 ^ (e + 1) < t.size
          · have hjlen : i + 2 ^ (e + 1) ≤ ws.length := by
              have := h.1
              omega
            have hentry : t.getD (i + 2 ^ (e + 1)) 0
                = csum ws (i + 2 ^ (e + 1)) - csum ws i := by
              have he := h.2 (i + 2 ^ (e + 1)) (by have := Nat.one_le_two_pow (n := e + 1); omega) hjlen
              have hlb : lowbit (i + 2 ^ (e + 1)) = 2 ^ (e + 1) := lowbit_add_pow (e + 1) i hdvd
              rw [he, hlb]
              congr 2
              omega
            have hkc : ¬ t.getD (i + 2 ^ (e + 1)) 0 < k - csum ws i := fun hx => hc ⟨hsz, hx⟩
            rw [hentry] at hkc
            omega
          · have hlen : ws.length ≤ i + 2 ^ (e + 1) := by
              have := h.1
              omega
            have := csum_beyond ws (i + 2 ^ (e + 1)) hlen
            omega
        exact ih i fuel (by omega) hdvd1 hlow hhigh1

/-- Correctness of `find_kth` for a tree representing the weight list `ws`:
the result `r` satisfies `csum ws r < k ≤ csum ws (r+1)` and `r < ws.length`. -/
theorem find_kth_spec (t : FenwickTree) (ws : List Int) (h : FenwickRepr t.tree ws)
    (k : Int) (hk1 : 1 ≤ k) (hkN : k ≤ csum ws ws.length) :
    csum ws (t.find_kth k) < k ∧ k ≤ csum ws (t.find_kth k + 1) ∧
      t.find_kth k < ws.length := by
  have hsz : t.tree.size = ws.length + 1 := h.1
  have hne : t.tree.size ≠ 0 := by omega
  have hbl : pyBitLength t.tree.size = Nat.log2 t.tree.size + 1 := by
    rw [pyBitLength, if_neg hne]
  have hfuel : Nat.log2 t.tree.size + 2 ≤ 2 ^ Nat.log2 t.tree.size + 1 := by
    have := Nat.lt_two_pow (Nat.log2 t.tree.size)
    omega
  have hlow : csum ws 0 < k := by
    show (0 : Int) < k
    omega
  have hhigh : k ≤ csum ws (0 + 2 ^ (Nat.log2 t.tree.size + 1)) := by
    have hlt : t.tree.size < 2 ^ (Nat.log2 t.tree.size + 1) := Nat.lt_log2_self
    rw [csum_beyond ws _ (by omega)]
    exact hkN
  have hmain := findGo_spec t.tree ws h k hkN (Nat.log2 t.tree.size) 0
    (2 ^ Nat.log2 t.tree.size + 1) hfuel (dvd_zero _) hlow hhigh
  have hzero : csum ws 0 = 0 := rfl
  rw [hzero, sub_zero] at hmain
  have hsimp : Nat.log2 t.tree.size + 1 - 1 = Nat.log2 t.tree.size := by omega
  have hdef : t.find_kth k
      = findGo t.tree (2 ^ Nat.log2 t.tree.size + 1) 0 k (2 ^ Nat.log2 t.tree.size) := by
    unfold FenwickTree.find_kth
    rw [hbl, hsimp]
  rw [hdef]
  exact hmain

/-! ## Data model (`rgrr/model.py`) and simulator (`rgrr/simulator.py`)

`Node` and `Model` are the classes of `model.py`; `Simulator` is the class of
`simulator.py` (the one the live operation classes in `operations.py` act
on).  Python's process-global `random` generator state is carried as the
`rng` field and threaded explicitly by the multi-epoch drivers.
-/

/-- `Node(id, resources)`; `resources_added` starts at 0. -/
structure Node where
  id : Nat
  resources : Int
  resources_added : Int
deriving DecidableEq, Repr

/-- `Model(size, resources_per_node)`. -/
structure Model where
  Nodes : List Node
  total_resources : Int
deriving DecidableEq, Repr

/-- `Model.__init__`: `Nodes = [Node(i, resources_per_node) for i in range(size)]`,
`total_resources = size * resources_per_node`. -/
def Model.create (size : Nat) (resources_per_node : Int) : Model :=
  ⟨(List.range size).map (fun i => ⟨i, resources_per_node, 0⟩),
    (size : Int) * resources_per_node⟩

/-- One step of the modelled pseudo-random generator (a 64-bit linear
congruential stand-in for Python's Mersenne Twister; all properties proved
here depend only on it being a deterministic function of the state). -/
def rngNext (g : Nat) : Nat :=
  (6364136223846793005 * g + 1442695040888963407) % (2 ^ 64)

/-- `random.seed(s)`: install a generator state derived from `s` alone. -/
def seedRng (s : Nat) : Nat := rngNext s

/-- `random.randint(lo, hi)`: a value in `[lo, hi]` plus the advanced state. -/
def randint (lo hi g : Nat) : Nat × Nat :=
  let g2 := rngNext g
  (lo + g2 % (hi + 1 - lo), g2)

/-- The `Simulator` state: the shared model, the two run-scoped counters, the
Fenwick tree mirroring node balances, and the (global) generator state. -/
structure Simulator where
  model : Model
  total_tax_collected : Int
  total_expenditure_incurred : Int
  fenwick_tree : FenwickTree
  rng : Nat
deriving DecidableEq, Repr

/-- `Simulator.__init__(model, seed, operations)`: zero the counters, call
`random.seed(seed)` if a seed is given (otherwise the global generator state
`g` is left as is), and build the Fenwick tree by
`for i, node in enumerate(model.Nodes): tree.add(i, node.resources)`
(that loop is exactly `buildFenwick` on the balance list).  The operation
list is passed to `Simulator.run` instead of being stored. -/
def Simulator.create (m : Model) (seed : Option Nat) (g : Nat) : Simulator :=
  { model := m
    total_tax_collected := 0
    total_expenditure_incurred := 0
    fenwick_tree := buildFenwick (m.Nodes.map (fun nd => nd.resources))
    rng := match seed with
      | some s => seedRng s
      | none => g }

/-- Replace the element at position `i` by `f` of it (no-op past the end). -/
def listModify : List Node → Nat → (Node → Node) → List Node
  | [], _, _ => []
  | x :: xs, 0, f => f x :: xs
  | x :: xs, n + 1, f => x :: listModify xs n f

/-- `Simulator.add_resources_to_node(node_id, amount)`: the four updates —
node balance, per-epoch counter, cached total, Fenwick weight — performed
together in one function.  The source opens with
`assert 0 <= node_id < len(Nodes)` (an `AssertionError` aborts before any
update); every internal call site is in range, so the embedding models the
out-of-range case as the pre-assertion state. -/
def Simulator.add_resources_to_node (s : Simulator) (node_id : Nat) (amount : Int) :
    Simulator :=
  if node_id < s.model.Nodes.length then
    { s with
      model :=
        { Nodes := listModify s.model.Nodes node_id (fun nd =>
            { nd with
              resources := nd.resources + amount
              resources_added := nd.resources_added + amount })
          total_resources := s.model.total_resources + amount }
      fenwick_tree := s.fenwick_tree.add node_id amount }
  else s

/-- `Simulator.get_resource_distribution()`. -/
def Simulator.get_resource_distribution (s : Simulator) : List Int :=
  s.model.Nodes.map (fun nd => nd.resources)

/-! ## Operations (`rgrr/operations.py`)

The operation classes the system actually instantiates (every caller — the
tests, `server/main.py` and `server.py` — imports them from
`rgrr.operations`): the three `ResourceDistributionOperation` subclasses,
`IncomeTaxCollectionOperation` and `RequiredExpenditureOperation`.  The
duplicate operation classes inside `simulator.py` (whose `apply_tax`
redistributes within the epoch) are dead code with no callers.
-/

inductive DistMethod where
  | random
  | preferential
  | uniform
deriving DecidableEq, Repr

/-- An operation as configured: its own parameters only. -/
inductive SimulatorOperation where
  | dist (method : DistMethod) (resources_added : Nat)
  | tax (tax_rate : ℚ)
  | expenditure (expenditure : Int)
deriving DecidableEq, Repr

/-- `RandomResourceDistribution._distribute`: `total_resources` independent
uniform draws of a node id, one unit each. -/
def execRandomGo : Nat → Simulator → Simulator
  | 0, s => s
  | n + 1, s =>
    let draw := randint 0 (s.model.Nodes.length - 1) s.rng
    execRandomGo n (({ s with rng := draw.2 }).add_resources_to_node draw.1 1)

/-- `PreferentialResourceDistribution._distribute`: per unit, if
`total_resources == 0` fall back to one random draw, else draw
`k ∈ [1, total]` and resolve it through `find_kth`. -/
def execPreferentialGo : Nat → Simulator → Simulator
  | 0, s => s
  | n + 1, s =>
    if s.model.total_resources = 0 then
      let draw := randint 0 (s.model.Nodes.length - 1) s.rng
      execPreferentialGo n (({ s with rng := draw.2 }).add_resources_to_node draw.1 1)
    else
      let draw := randint 1 s.model.total_resources.toNat s.rng
      let node_id := s.fenwick_tree.find_kth (draw.1 : Int)
      execPreferentialGo n (({ s with rng := draw.2 }).add_resources_to_node node_id 1)

/-- The per-node amount of `UniformResourceDistribution`:
`resources_per_node + (1 if i < remainder else 0)`. -/
def uniformAmount (q n i : Nat) : Int :=
  ((q / n : Nat) : Int) + (if i < q % n then 1 else 0)

/-- `UniformResourceDistribution._distribute`: `floor(q/N)` to every node plus
one extra to the first `q mod N` nodes, in id order; early return when the
population is empty. -/
def execUniform (q : Nat) (s : Simulator) : Simulator :=
  if s.model.Nodes.isEmpty then s
  else
    (List.range s.model.Nodes.length).foldl
      (fun s2 i => s2.add_resources_to_node i (uniformAmount q s.model.Nodes.length i)) s

/-- Python's `int(a * r)` for an integer `a` and an exact rational rate `r`:
truncation toward zero of `a·r` (`= tdiv (a * r.num) r.den`). -/
def pyTruncMul (a : Int) (r : ℚ) : Int := Int.tdiv (a * r.num) (r.den : Int)

/-- The body of the `IncomeTaxCollectionOperation.execute` loop at node
position `i`: read the node, compute `int(resources_added * rate)`, and if
positive deduct it and add it to the running collected total. -/
def taxStep (r : ℚ) (p : Simulator × Int) (i : Nat) : Simulator × Int :=
  let nd := p.1.model.Nodes.getD i ⟨0, 0, 0⟩
  let tax_amount := pyTruncMul nd.resources_added r
  if 0 < tax_amount then (p.1.add_resources_to_node nd.id (-tax_amount), p.2 + tax_amount)
  else p

/-- The loop of `IncomeTaxCollectionOperation.execute` (validation and the
rate-0 early return live in `SimulatorOperation.execute`); afterwards
`total_tax_collected += total_tax`. -/
def applyIncomeTax (r : ℚ) (s : Simulator) : Simulator :=
  let q := (List.range s.model.Nodes.length).foldl (taxStep r) (s, 0)
  { q.1 with total_tax_collected := q.1.total_tax_collected + q.2 }

/-- The body of the `RequiredExpenditureOperation.execute` loop at node
position `i`: deduct `min(resources, expenditure)`. -/
def expStep (e : Int) (p : Simulator × Int) (i : Nat) : Simulator × Int :=
  let nd := p.1.model.Nodes.getD i ⟨0, 0, 0⟩
  let amount_to_deduct := min nd.resources e
  (p.1.add_resources_to_node nd.id (-amount_to_deduct), p.2 + amount_to_deduct)

/-- The loop of `RequiredExpenditureOperation.execute`; afterwards
`total_expenditure_incurred = total_expenditure_incurred` is *assigned* (not
added). -/
def applyRequiredExpenditure (e : Int) (s : Simulator) : Simulator :=
  let q := (List.range s.model.Nodes.length).foldl (expStep e) (s, 0)
  { q.1 with total_expenditure_incurred := q.2 }

/-- `execute(simulator)` of each operation class, with the validations the
source performs: the tax rate must lie in `[0,1]` (`ValueError` otherwise,
rate 0 returns immediately); expenditure 0 returns immediately; the random
and preferential draws raise when the population is empty and at least one
unit must be placed (`random.randint` on an empty range). -/
def SimulatorOperation.execute : SimulatorOperation → Simulator → Except String Simulator
  | .dist .random n, s =>
      if s.model.Nodes.length = 0 ∧ 0 < n then
        Except.error "empty range for randrange()"
      else Except.ok (execRandomGo n s)
  | .dist .preferential n, s =>
      if s.model.Nodes.length = 0 ∧ 0 < n then
        Except.error "empty range for randrange()"
      else Except.ok (execPreferentialGo n s)
  | .dist .uniform n, s => Except.ok (execUniform n s)
  | .tax r, s =>
      if 0 ≤ r ∧ r ≤ 1 then
        Except.ok (if r = 0 then s else applyIncomeTax r s)
      else Except.error "Tax rate must be between 0 and 1."
  | .expenditure e, s =>
      Except.ok (if e = 0 then s else applyRequiredExpenditure e s)

/-- The epoch-start reset in `Simulator.run`: zero every node's
`resources_added`. -/
def Simulator.resetEpochCounters (s : Simulator) : Simulator :=
  { s with
    model := { s.model with
      Nodes := s.model.Nodes.map (fun nd => { nd with resources_added := 0 }) } }

/-- `Simulator.run()`: reset the per-epoch counters, then execute the
configured operations in order; a raised error aborts the remainder. -/
def Simulator.run (ops : List SimulatorOperation) (s : Simulator) :
    Except String Simulator :=
  ops.foldlM (fun s2 op => op.execute s2) s.resetEpochCounters

/-! ## Multi-epoch drivers

`MultiStepSimulator` is the class in `src/rgrr/simulator.py`: each epoch
constructs a fresh `Simulator(self.model, self.seed, self.operations)` —
whose constructor calls `random.seed(seed)` whenever a seed was supplied —
runs it, and reports the epoch's distribution.  The run is instrumented with
the number of `random.seed` invocations it performs and with the threaded
global generator state.
-/

/-- The observable outcome of a multi-epoch run. -/
structure MultiRunResult where
  result : Except String Model
  rngOut : Nat
  distributions : List (List Int)
  seedApplications : Nat
deriving Repr

/-- The epoch loop of `MultiStepSimulator.run`. -/
def msRunGo (seed : Option Nat) (ops : List SimulatorOperation) :
    Nat → Model → Nat → MultiRunResult
  | 0, m, g => ⟨Except.ok m, g, [], 0⟩
  | e + 1, m, g =>
    let s0 := Simulator.create m seed g
    let applied : Nat := if seed.isSome then 1 else 0
    match Simulator.run ops s0 with
    | Except.error msg => ⟨Except.error msg, s0.rng, [], applied⟩
    | Except.ok s2 =>
      let rest := msRunGo seed ops e s2.model s2.rng
      ⟨rest.result, rest.rngOut, s2.get_resource_distribution :: rest.distributions,
        applied + rest.seedApplications⟩

/-- The `MultiStepSimulator` of `src/rgrr/simulator.py`. -/
structure MultiStepSimulator where
  model : Model
  epochs : Nat
  seed : Option Nat
  operations : List SimulatorOperation
deriving DecidableEq, Repr

/-- `MultiStepSimulator.run()`, started from global generator state `g`. -/
def MultiStepSimulator.run (m : MultiStepSimulator) (g : Nat) : MultiRunResult :=
  msRunGo m.seed m.operations m.epochs m.model g

/-- Modelled from the spec: the carry-over orchestrator of §4.6.  The
repository's own tests (`TestMultiStepSimulator`) and callers
(`server/main.py`, `server.py`) use a five-argument `MultiStepSimulator`
with a redistribution-policy argument and a `distributions` record; that
variant's source file is not in the repository (the `MultiStepSimulator`
that is, in `simulator.py`, takes four arguments and performs no
carry-over).  Per §4.6: the seed is applied once, globally, before the first
epoch; before each later epoch, a distribution operation (of the configured
redistribution method) is prepended for the previous epoch's collected tax
and one for its incurred expenditure, when nonzero; each epoch gets a fresh
engine (counters zeroed) over the shared population, Fenwick index and
generator; each epoch's distribution snapshot is appended to the record. -/
def specRunGo (method : DistMethod) (ops : List SimulatorOperation) :
    Nat → Simulator → Int → Int → Except String (Simulator × List (List Int))
  | 0, s, _, _ => Except.ok (s, [])
  | e + 1, s, prevTax, prevExp =>
    let carry :=
      (if 0 < prevTax then [SimulatorOperation.dist method prevTax.toNat] else [])
        ++ (if 0 < prevExp then [SimulatorOperation.dist method prevExp.toNat] else [])
    let s0 : Simulator :=
      { s with total_tax_collected := 0, total_expenditure_incurred := 0 }
    match Simulator.run (carry ++ ops) s0 with
    | Except.error msg => Except.error msg
    | Except.ok s2 =>
      match specRunGo method ops e s2 s2.total_tax_collected s2.total_expenditure_incurred with
      | Except.error msg => Except.error msg
      | Except.ok p => Except.ok (p.1, s2.get_resource_distribution :: p.2)

/-- Modelled from the spec: the five-argument multi-epoch orchestrator (see
`specRunGo`). -/
structure MultiStepSimulatorSpec where
  model : Model
  epochs : Nat
  seed : Option Nat
  operations : List SimulatorOperation
  redistribution_method : DistMethod
deriving DecidableEq, Repr

/-- Modelled from the spec: run the carry-over orchestrator; the seed, when
supplied, is applied once before the first epoch (otherwise the incoming
global generator state `g` is used). -/
def MultiStepSimulatorSpec.run (m : MultiStepSimulatorSpec) (g : Nat) :
    Except String (Simulator × List (List Int)) :=
  specRunGo m.redistribution_method m.operations m.epochs
    (Simulator.create m.model none
      (match m.seed with
        | some s => seedRng s
        | none => g)) 0 0

/-! ## Observations and invariants of the simulator state -/

/-- Balance of the node at position `i` (0 past the end). -/
def nodeRes (s : Simulator) (i : Nat) : Int :=
  (s.model.Nodes.getD i ⟨0, 0, 0⟩).resources

/-- Per-epoch counter of the node at position `i` (0 past the end). -/
def nodeAdded (s : Simulator) (i : Nat) : Int :=
  (s.model.Nodes.getD i ⟨0, 0, 0⟩).resources_added

/-- Id of the node at position `i`. -/
def nodeId (s : Simulator) (i : Nat) : Nat :=
  (s.model.Nodes.getD i ⟨0, 0, 0⟩).id

/-- Number of nodes. -/
def numNodes (s : Simulator) : Nat := s.model.Nodes.length

/-- The balance list mirrored by the Fenwick tree. -/
def resList (s : Simulator) : List Int := s.model.Nodes.map (fun nd => nd.resources)

/-- Node ids are dense (`Nodes[i].id = i`), as every construction makes them. -/
def idsDense (s : Simulator) : Prop := ∀ i, i < numNodes s → nodeId s i = i

/-- The cached-total invariant of §3. -/
def totalInv (s : Simulator) : Prop := s.model.total_resources = (resList s).sum

/-- The Fenwick tree mirrors the balance list. -/
def fenRepr (s : Simulator) : Prop := FenwickRepr s.fenwick_tree.tree (resList s)

/-- `isum f m = f 0 + ... + f (m-1)`. -/
def isum (f : Nat → Int) : Nat → Int
  | 0 => 0
  | m + 1 => isum f m + f m

/-- Net signed amount directed at node position `i` by a list of
`(node_id, amount)` mutations. -/
def netSum : List (Nat × Int) → Nat → Int
  | [], _ => 0
  | p :: ps, i => (if p.1 = i then p.2 else 0) + netSum ps i

/-- Total amount of a list of mutations. -/
def amtSum : List (Nat × Int) → Int
  | [] => 0
  | p :: ps => p.2 + amtSum ps

theorem resList_length (s : Simulator) : (resList s).length = numNodes s := by
  simp [resList, numNodes]

theorem listModify_length (l : List Node) (i : Nat) (f : Node → Node) :
    (listModify l i f).length = l.length := by
  induction l generalizing i with
  | nil => rfl
  | cons x xs ih =>
      cases i with
      | zero => rfl
      | succ i => show (x :: listModify xs i f).length = _; simp [ih]

theorem listModify_getD (l : List Node) (i : Nat) (f : Node → Node) (j : Nat) (d : Node) :
    (listModify l i f).getD j d
      = if i = j ∧ j < l.length then f (l.getD j d) else l.getD j d := by
  induction l generalizing i j with
  | nil => simp [listModify, List.getD]
  | cons x xs ih =>
      cases i with
      | zero =>
          cases j with
          | zero => simp [listModify]
          | succ j => simp [listModify, List.getD_cons_succ]
      | succ i =>
          cases j with
          | zero => simp [listModify]
          | succ j =>
              show (x :: listModify xs i f).getD (j + 1) d = _
              rw [List.getD_cons_succ, List.getD_cons_succ, ih]
              have h : (i = j ∧ j < xs.length) ↔ (i + 1 = j + 1 ∧ j + 1 < (x :: xs).length) := by
                simp only [List.length_cons]
                omega
              by_cases hc : i = j ∧ j < xs.length
              · rw [if_pos hc, if_pos (h.mp hc)]
              · rw [if_neg hc, if_neg (fun hx => hc (h.mpr hx))]

theorem sum_set_getD (ws : List Int) (i : Nat) (v : Int) (h : i < ws.length) :
    (ws.set i v).sum = ws.sum - ws.getD i 0 + v := by
  induction ws generalizing i with
  | nil => simp at h
  | cons x xs ih =>
      cases i with
      | zero => simp [List.getD]; ring
      | succ i =>
          rw [List.set_cons_succ, List.sum_cons, List.sum_cons, ih i (by simpa using h),
            List.getD_cons_succ]
          ring

theorem getD_map_resources (l : List Node) (i : Nat) :
    (l.map (fun nd => nd.resources)).getD i 0 = (l.getD i ⟨0, 0, 0⟩).resources := by
  induction l generalizing i with
  | nil => simp [List.getD]
  | cons x xs ih =>
      cases i with
      | zero => rfl
      | succ i =>
          rw [List.map_cons, List.getD_cons_succ, List.getD_cons_succ]
          exact ih i

theorem nodeRes_resList (s : Simulator) (i : Nat) : nodeRes s i = (resList s).getD i 0 := by
  unfold nodeRes resList
  rw [getD_map_resources]

theorem resList_modify (l : List Node) (i : Nat) (amt : Int) :
    (listModify l i (fun nd =>
        { nd with resources := nd.resources + amt,
                  resources_added := nd.resources_added + amt })).map (fun nd => nd.resources)
      = (l.map (fun nd => nd.resources)).set i
          ((l.map (fun nd => nd.resources)).getD i 0 + amt) := by
  induction l generalizing i with
  | nil => rfl
  | cons x xs ih =>
      cases i with
      | zero => rfl
      | succ i =>
          show x.resources :: _ = x.resources :: _
          rw [ih]
          rfl

theorem add_numNodes (s : Simulator) (id : Nat) (amt : Int) :
    numNodes (s.add_resources_to_node id amt) = numNodes s := by
  unfold Simulator.add_resources_to_node numNodes
  split
  · exact listModify_length ..
  · rfl

theorem add_nodeId (s : Simulator) (id : Nat) (amt : Int) (j : Nat) :
    nodeId (s.add_resources_to_node id amt) j = nodeId s j := by
  unfold Simulator.add_resources_to_node nodeId
  split
  · show ((listModify s.model.Nodes id _).getD j _).id = _
    rw [listModify_getD]
    split <;> rfl
  · rfl

theorem add_nodeRes (s : Simulator) (id : Nat) (amt : Int) (h : id < numNodes s) (j : Nat) :
    nodeRes (s.add_resources_to_node id amt) j = nodeRes s j + if id = j then amt else 0 := by
  unfold Simulator.add_resources_to_node nodeRes
  rw [if_pos (show id < s.model.Nodes.length from h)]
  show ((listModify s.model.Nodes id _).getD j _).resources = _
  rw [listModify_getD]
  by_cases hij : id = j
  · subst hij
    rw [if_pos ⟨rfl, h⟩, if_pos rfl]
  · rw [if_neg (fun hx => hij hx.1), if_neg hij]
    ring

theorem add_nodeAdded (s : Simulator) (id : Nat) (amt : Int) (h : id < numNodes s) (j : Nat) :
    nodeAdded (s.add_resources_to_node id amt) j
      = nodeAdded s j + if id = j then amt else 0 := by
  unfold Simulator.add_resources_to_node nodeAdded
  rw [if_pos (show id < s.model.Nodes.length from h)]
  show ((listModify s.model.Nodes id _).getD j _).resources_added = _
  rw [listModify_getD]
  by_cases hij : id = j
  · subst hij
    rw [if_pos ⟨rfl, h⟩, if_pos rfl]
  · rw [if_neg (fun hx => hij hx.1), if_neg hij]
    ring

theorem add_total (s : Simulator) (id : Nat) (amt : Int) (h : id < numNodes s) :
    (s.add_resources_to_node id amt).model.total_resources
      = s.model.total_resources + amt := by
  unfold Simulator.add_resources_to_node
  rw [if_pos (show id < s.model.Nodes.length from h)]

theorem add_fenwick (s : Simulator) (id : Nat) (amt : Int) (h : id < numNodes s) :
    (s.add_resources_to_node id amt).fenwick_tree = s.fenwick_tree.add id amt := by
  unfold Simulator.add_resources_to_node
  rw [if_pos (show id < s.model.Nodes.length from h)]

theorem add_tax_counter (s : Simulator) (id : Nat) (amt : Int) :
    (s.add_resources_to_node id amt).total_tax_collected = s.total_tax_collected := by
  unfold Simulator.add_resources_to_node
  split <;> rfl

theorem add_exp_counter (s : Simulator) (id : Nat) (amt : Int) :
    (s.add_resources_to_node id amt).total_expenditure_incurred
      = s.total_expenditure_incurred := by
  unfold Simulator.add_resources_to_node
  split <;> rfl

theorem add_rng (s : Simulator) (id : Nat) (amt : Int) :
    (s.add_resources_to_node id amt).rng = s.rng := by
  unfold Simulator.add_resources_to_node
  split <;> rfl

theorem add_resList (s : Simulator) (id : Nat) (amt : Int) (h : id < numNodes s) :
    resList (s.add_resources_to_node id amt)
      = (resList s).set id ((resList s).getD id 0 + amt) := by
  unfold Simulator.add_resources_to_node resList
  rw [if_pos (show id < s.model.Nodes.length from h)]
  exact resList_modify ..

theorem add_totalInv (s : Simulator) (id : Nat) (amt : Int) (h : id < numNodes s)
    (hs : totalInv s) : totalInv (s.add_resources_to_node id amt) := by
  unfold totalInv
  rw [add_resList s id amt h, add_total s id amt h,
    sum_set_getD _ _ _ (by rw [resList_length]; exact h), hs]
  ring

theorem add_fenRepr (s : Simulator) (id : Nat) (amt : Int) (h : id < numNodes s)
    (hb : absSum (resList (s.add_resources_to_node id amt)) < 2 ^ 63)
    (hs : fenRepr s) : fenRepr (s.add_resources_to_node id amt) := by
  rw [add_resList s id amt h] at hb
  unfold fenRepr
  rw [add_resList s id amt h, add_fenwick s id amt h]
  exact repr_add _ _ hs id (by rw [resList_length]; exact h) amt hb

theorem add_idsDense (s : Simulator) (id : Nat) (amt : Int)
    (hs : idsDense s) : idsDense (s.add_resources_to_node id amt) := by
  intro i hi
  rw [add_numNodes] at hi
  rw [add_nodeId]
  exact hs i hi

/-- A list of `add_resources_to_node` mutations, applied in order. -/
def applyAdds (ps : List (Nat × Int)) (s : Simulator) : Simulator :=
  ps.foldl (fun s2 p => s2.add_resources_to_node p.1 p.2) s

/-- Combined effect of a list of in-range mutations: every per-node balance
and per-epoch counter moves by that node's net amount, the cached total by
the grand total, the cached-total invariant is preserved (balances and the
total are unbounded Python ints), and nothing else changes.  Preservation of
the Fenwick representation is *not* unconditional — the int64 entries can
wrap — and is stated separately as `applyAdds_fenRepr`. -/
theorem applyAdds_spec (ps : List (Nat × Int)) : ∀ (s : Simulator),
    (∀ p ∈ ps, p.1 < numNodes s) →
    numNodes (applyAdds ps s) = numNodes s ∧
    (∀ i, nodeRes (applyAdds ps s) i = nodeRes s i + netSum ps i) ∧
    (∀ i, nodeAdded (applyAdds ps s) i = nodeAdded s i + netSum ps i) ∧
    (applyAdds ps s).model.total_resources = s.model.total_resources + amtSum ps ∧
    (∀ i, nodeId (applyAdds ps s) i = nodeId s i) ∧
    (applyAdds ps s).total_tax_collected = s.total_tax_collected ∧
    (applyAdds ps s).total_expenditure_incurred = s.total_expenditure_incurred ∧
    (applyAdds ps s).rng = s.rng ∧
    (totalInv s → totalInv (applyAdds ps s)) := by
  induction ps with
  | nil =>
      intro s _
      refine ⟨rfl, ?_, ?_, ?_, ?_, rfl, rfl, rfl, fun h => h⟩
      · intro i; show nodeRes s i = nodeRes s i + netSum [] i; show _ = _ + 0; ring
      · intro i; show nodeAdded s i = nodeAdded s i + netSum [] i; show _ = _ + 0; ring
      · show s.model.total_resources = _ + amtSum []; show _ = _ + 0; ring
      · intro i; rfl
  | cons p ps ih =>
      intro s hin
      have hp : p.1 < numNodes s := hin p (by simp)
      have happ : applyAdds (p :: ps) s = applyAdds ps (s.add_resources_to_node p.1 p.2) := rfl
      have hin2 : ∀ q ∈ ps, q.1 < numNodes (s.add_resources_to_node p.1 p.2) := by
        intro q hq
        rw [add_numNodes]
        exact hin q (by simp [hq])
      obtain ⟨e1, e2, e3, e4, e5, e6, e7, e8, e9⟩ := ih (s.add_resources_to_node p.1 p.2) hin2
      rw [happ]
      refine ⟨?_, ?_, ?_, ?_, ?_, ?_, ?_, ?_, ?_⟩
      · rw [e1, add_numNodes]
      · intro i
        rw [e2 i, add_nodeRes s p.1 p.2 hp i]
        show _ = _ + ((if p.1 = i then p.2 else 0) + netSum ps i)
        ring
      · intro i
        rw [e3 i, add_nodeAdded s p.1 p.2 hp i]
        show _ = _ + ((if p.1 = i then p.2 else 0) + netSum ps i)
        ring
      · rw [e4, add_total s p.1 p.2 hp]
        show _ = _ + (p.2 + amtSum ps)
        ring
      · intro i
        rw [e5 i, add_nodeId]
      · rw [e6, add_tax_counter]
      · rw [e7, add_exp_counter]
      · rw [e8, add_rng]
      · intro h
        exact e9 (add_totalInv s p.1 p.2 hp h)

/-- The Fenwick representation survives a mutation sequence when the running
balance lists never exceed the int64 budget: after every prefix of the
sequence the sum of the absolute balances stays below `2 ^ 63`, so no entry
of the int64 array ever wraps. -/
theorem applyAdds_fenRepr : ∀ (ps : List (Nat × Int)) (s : Simulator),
    (∀ p ∈ ps, p.1 < numNodes s) → fenRepr s →
    (∀ m, m ≤ ps.length → absSum (resList (applyAdds (ps.take m) s)) < 2 ^ 63) →
    fenRepr (applyAdds ps s) := by
  intro ps
  induction ps with
  | nil => intro s _ hr _; exact hr
  | cons p ps ih =>
      intro s hin hr hb
      have hp : p.1 < numNodes s := hin p (by simp)
      have h1 : absSum (resList (s.add_resources_to_node p.1 p.2)) < 2 ^ 63 :=
        hb 1 (by simp)
      have hin2 : ∀ q ∈ ps, q.1 < numNodes (s.add_resources_to_node p.1 p.2) := by
        intro q hq
        rw [add_numNodes]
        exact hin q (by simp [hq])
      have hr2 : fenRepr (s.add_resources_to_node p.1 p.2) :=
        add_fenRepr s p.1 p.2 hp h1 hr
      have hb2 : ∀ m, m ≤ ps.length →
          absSum (resList (applyAdds (ps.take m) (s.add_resources_to_node p.1 p.2))) < 2 ^ 63 :=
        fun m hm => hb (m + 1) (Nat.succ_le_succ hm)
      exact ih (s.add_resources_to_node p.1 p.2) hin2 hr2 hb2

theorem netSum_append (a b : List (Nat × Int)) (i : Nat) :
    netSum (a ++ b) i = netSum a i + netSum b i := by
  induction a with
  | nil => show netSum b i = 0 + netSum b i; ring
  | cons p ps ih =>
      show (if p.1 = i then p.2 else 0) + netSum (ps ++ b) i = _
      rw [ih]
      show _ = (if p.1 = i then p.2 else 0) + netSum ps i + netSum b i
      ring

theorem amtSum_append (a b : List (Nat × Int)) :
    amtSum (a ++ b) = amtSum a + amtSum b := by
  induction a with
  | nil => show amtSum b = 0 + amtSum b; ring
  | cons p ps ih =>
      show p.2 + amtSum (ps ++ b) = _
      rw [ih]
      show _ = p.2 + amtSum ps + amtSum b
      ring

/-- The mutation list performed by `execUniform` over `n` nodes. -/
def uniformAdds (q n : Nat) : List (Nat × Int) :=
  (List.range n).map (fun i => (i, uniformAmount q n i))

theorem netSum_map_range (f : Nat → Int) (n : Nat) (i : Nat) :
    netSum ((List.range n).map (fun j => (j, f j))) i = if i < n then f i else 0 := by
  induction n with
  | zero => simp [netSum]
  | succ n ih =>
      rw [List.range_succ, List.map_append, netSum_append, ih]
      simp only [List.map_cons, List.map_nil, netSum]
      by_cases hni : n = i
      · subst hni
        rw [if_neg (by omega), if_pos rfl, if_pos (by omega)]
        ring
      · by_cases hlt : i < n
        · rw [if_pos hlt, if_neg hni, if_pos (by omega)]
          ring
        · rw [if_neg hlt, if_neg hni, if_neg (by omega)]
          ring

theorem netSum_uniformAdds (q n : Nat) (i : Nat) :
    netSum (uniformAdds q n) i = if i < n then uniformAmount q n i else 0 :=
  netSum_map_range (uniformAmount q n) n i

theorem amtSum_map_range (f : Nat → Int) (n : Nat) :
    amtSum ((List.range n).map (fun i => (i, f i))) = isum f n := by
  induction n with
  | zero => rfl
  | succ n ih =>
      rw [List.range_succ, List.map_append, amtSum_append, ih]
      show isum f n + (f n + 0) = isum f n + f n
      ring

theorem isum_uniformAmount (q n : Nat) (hn : 0 < n) :
    isum (uniformAmount q n) n = (q : Int) := by
  have key : ∀ m : Nat, isum (uniformAmount q n) m
      = (m : Int) * ((q / n : Nat) : Int) + (min (q % n) m : Nat) := by
    intro m
    induction m with
    | zero => simp [isum]
    | succ m ih =>
        show isum (uniformAmount q n) m + uniformAmount q n m = _
        rw [ih]
        unfold uniformAmount
        by_cases hm : m < q % n
        · rw [if_pos hm]
          have h1 : min (q % n) (m + 1) = min (q % n) m + 1 := by omega
          rw [h1]
          push_cast
          ring
        · rw [if_neg hm]
          have h1 : min (q % n) (m + 1) = min (q % n) m := by omega
          rw [h1]
          push_cast
          ring
  rw [key n]
  have h1 : min (q % n) n = q % n := by
    have := Nat.mod_lt q hn
    omega
  rw [h1]
  have h2 : n * (q / n) + q % n = q := Nat.div_add_mod q n
  push_cast
  push_cast at h2
  linarith

/-- `execUniform` is the in-range mutation list `uniformAdds` (for a nonempty
population). -/
theorem execUniform_eq_applyAdds (q : Nat) (s : Simulator) (hn : 0 < numNodes s) :
    execUniform q s = applyAdds (uniformAdds q (numNodes s)) s := by
  unfold execUniform applyAdds uniformAdds
  have hne : s.model.Nodes.isEmpty = false := by
    unfold numNodes at hn
    cases h : s.model.Nodes with
    | nil => rw [h] at hn; simp at hn
    | cons x xs => rfl
  rw [hne]
  show (List.range s.model.Nodes.length).foldl _ s = _
  rw [List.foldl_map]
  rfl

theorem uniformAdds_in_range (q n : Nat) : ∀ p ∈ uniformAdds q n, p.1 < n := by
  intro p hp
  unfold uniformAdds at hp
  obtain ⟨i, hi, rfl⟩ := List.mem_map.mp hp
  exact List.mem_range.mp hi

/-- Combined effect of `UniformResourceDistribution` on a nonempty
population: node `i` gains `floor(q/N) + (1 if i < q mod N)`, the total grows
by exactly `q`, and nothing else changes. -/
theorem execUniform_spec (q : Nat) (s : Simulator) (hn : 0 < numNodes s) :
    numNodes (execUniform q s) = numNodes s ∧
    (∀ i, i < numNodes s →
      nodeRes (execUniform q s) i = nodeRes s i + uniformAmount q (numNodes s) i) ∧
    (∀ i, i < numNodes s →
      nodeAdded (execUniform q s) i = nodeAdded s i + uniformAmount q (numNodes s) i) ∧
    (execUniform q s).model.total_resources = s.model.total_resources + q ∧
    (∀ i, nodeId (execUniform q s) i = nodeId s i) ∧
    (execUniform q s).total_tax_collected = s.total_tax_collected ∧
    (execUniform q s).total_expenditure_incurred = s.total_expenditure_incurred ∧
    (execUniform q s).rng = s.rng ∧
    (totalInv s → totalInv (execUniform q s)) := by
  rw [execUniform_eq_applyAdds q s hn]
  have hin : ∀ p ∈ uniformAdds q (numNodes s), p.1 < numNodes s :=
    uniformAdds_in_range q (numNodes s)
  obtain ⟨e1, e2, e3, e4, e5, e6, e7, e8, e9⟩ :=
    applyAdds_spec (uniformAdds q (numNodes s)) s hin
  refine ⟨e1, ?_, ?_, ?_, e5, e6, e7, e8, e9⟩
  · intro i hi
    rw [e2 i, netSum_uniformAdds, if_pos hi]
  · intro i hi
    rw [e3 i, netSum_uniformAdds, if_pos hi]
  · rw [e4]
    have hamt : amtSum (uniformAdds q (numNodes s)) = isum (uniformAmount q (numNodes s)) (numNodes s) :=
      amtSum_map_range (uniformAmount q (numNodes s)) (numNodes s)
    rw [hamt, isum_uniformAmount q (numNodes s) hn]

/-- Per-node tax deduction: `int(resources_added * rate)` when positive,
otherwise nothing. -/
def dTax (s : Simulator) (r : ℚ) (i : Nat) : Int :=
  if 0 < pyTruncMul (nodeAdded s i) r then pyTruncMul (nodeAdded s i) r else 0

/-- The tax loop state after the first `m` node positions. -/
def taxFoldAux (r : ℚ) (s : Simulator) (m : Nat) : Simulator × Int :=
  (List.range m).foldl (taxStep r) (s, 0)

theorem dTax_nonneg (s : Simulator) (r : ℚ) (i : Nat) : 0 ≤ dTax s r i := by
  unfold dTax
  split <;> omega

theorem applyIncomeTax_eq (r : ℚ) (s : Simulator) :
    applyIncomeTax r s
      = { (taxFoldAux r s (numNodes s)).1 with
          total_tax_collected :=
            (taxFoldAux r s (numNodes s)).1.total_tax_collected
              + (taxFoldAux r s (numNodes s)).2 } := rfl

/-- Invariant of the tax loop: after the first `m` positions, each of those
nodes has lost its deduction from both its balance and its per-epoch counter,
the cached total dropped by their sum, the accumulator holds that sum, and
nothing else changed.  (Each iteration reads its own node before deducting
from it and touches no later node, so the deductions are the ones computed
from the pre-loop state.) -/
theorem taxFold_spec (s : Simulator) (r : ℚ) (hd : idsDense s) :
    ∀ m, m ≤ numNodes s →
    numNodes (taxFoldAux r s m).1 = numNodes s ∧
    (∀ i, nodeId (taxFoldAux r s m).1 i = nodeId s i) ∧
    (∀ i, nodeRes (taxFoldAux r s m).1 i
        = nodeRes s i - if i < m then dTax s r i else 0) ∧
    (∀ i, nodeAdded (taxFoldAux r s m).1 i
        = nodeAdded s i - if i < m then dTax s r i else 0) ∧
    (taxFoldAux r s m).1.model.total_resources
      = s.model.total_resources - isum (dTax s r) m ∧
    (taxFoldAux r s m).1.total_tax_collected = s.total_tax_collected ∧
    (taxFoldAux r s m).1.total_expenditure_incurred = s.total_expenditure_incurred ∧
    (taxFoldAux r s m).1.rng = s.rng ∧
    (taxFoldAux r s m).2 = isum (dTax s r) m := by
  intro m
  induction m with
  | zero =>
      intro _
      refine ⟨rfl, fun i => rfl, ?_, ?_, ?_, rfl, rfl, rfl, rfl⟩
      · intro i
        show nodeRes s i = nodeRes s i - if i < 0 then dTax s r i else 0
        rw [if_neg (by omega)]
        ring
      · intro i
        show nodeAdded s i = nodeAdded s i - if i < 0 then dTax s r i else 0
        rw [if_neg (by omega)]
        ring
      · show s.model.total_resources = s.model.total_resources - 0
        ring
  | succ m ih =>
      intro hm
      obtain ⟨e1, e2, e3, e4, e5, e6, e7, e8, e9⟩ := ih (by omega)
      have hstep : taxFoldAux r s (m + 1) = taxStep r (taxFoldAux r s m) m := by
        unfold taxFoldAux
        rw [List.range_succ, List.foldl_append]
        rfl
      have hid : ((taxFoldAux r s m).1.model.Nodes.getD m ⟨0, 0, 0⟩).id = m := by
        have h1 : nodeId (taxFoldAux r s m).1 m = nodeId s m := e2 m
        have h2 : nodeId s m = m := hd m (by omega)
        exact h1.trans h2
      have hadd : ((taxFoldAux r s m).1.model.Nodes.getD m ⟨0, 0, 0⟩).resources_added
          = nodeAdded s m := by
        have h1 : nodeAdded (taxFoldAux r s m).1 m
            = nodeAdded s m - if m < m then dTax s r m else 0 := e4 m
        rw [if_neg (by omega)] at h1
        show nodeAdded (taxFoldAux r s m).1 m = nodeAdded s m
        rw [h1]
        ring
      rw [hstep]
      simp only [taxStep]
      rw [hid, hadd]
      by_cases hpos : 0 < pyTruncMul (nodeAdded s m) r
      · rw [if_pos hpos]
        have hdt : dTax s r m = pyTruncMul (nodeAdded s m) r := by
          unfold dTax
          rw [if_pos hpos]
        have hmN : m < numNodes (taxFoldAux r s m).1 := by rw [e1]; omega
        refine ⟨?_, ?_, ?_, ?_, ?_, ?_, ?_, ?_, ?_⟩
        · show numNodes ((taxFoldAux r s m).1.add_resources_to_node m _) = _
          rw [add_numNodes, e1]
        · intro i
          show nodeId ((taxFoldAux r s m).1.add_resources_to_node m _) i = _
          rw [add_nodeId]
          exact e2 i
        · intro i
          show nodeRes ((taxFoldAux r s m).1.add_resources_to_node m _) i = _
          rw [add_nodeRes _ _ _ hmN i, e3 i]
          by_cases him : m = i
          · subst him
            rw [if_pos rfl, if_neg (by omega), if_pos (by omega), hdt]
            ring
          · rw [if_neg him]
            by_cases hlt : i < m
            · rw [if_pos hlt, if_pos (by omega)]
              ring
            · rw [if_neg hlt, if_neg (by omega)]
              ring
        · intro i
          show nodeAdded ((taxFoldAux r s m).1.add_resources_to_node m _) i = _
          rw [add_nodeAdded _ _ _ hmN i, e4 i]
          by_cases him : m = i
          · subst him
            rw [if_pos rfl, if_neg (by omega), if_pos (by omega), hdt]
            ring
          · rw [if_neg him]
            by_cases hlt : i < m
            · rw [if_pos hlt, if_pos (by omega)]
              ring
            · rw [if_neg hlt, if_neg (by omega)]
              ring
        · show ((taxFoldAux r s m).1.add_resources_to_node m _).model.total_resources = _
          rw [add_total _ _ _ hmN, e5]
          show _ = s.model.total_resources - (isum (dTax s r) m + dTax s r m)
          rw [hdt]
          ring
        · show ((taxFoldAux r s m).1.add_resources_to_node m _).total_tax_collected = _
          rw [add_tax_counter]
          exact e6
        · show ((taxFoldAux r s m).1.add_resources_to_node m _).total_expenditure_incurred = _
          rw [add_exp_counter]
          exact e7
        · show ((taxFoldAux r s m).1.add_resources_to_node m _).rng = _
          rw [add_rng]
          exact e8
        · show (taxFoldAux r s m).2 + pyTruncMul (nodeAdded s m) r = isum (dTax s r) (m + 1)
          rw [e9]
          show _ = isum (dTax s r) m + dTax s r m
          rw [hdt]
      · rw [if_neg hpos]
        have hdt : dTax s r m = 0 := by
          unfold dTax
          rw [if_neg hpos]
        refine ⟨e1, e2, ?_, ?_, ?_, e6, e7, e8, ?_⟩
        · intro i
          rw [e3 i]
          by_cases him : i = m
          · subst him
            rw [if_neg (by omega), if_pos (by omega), hdt]
          · by_cases hlt : i < m
            · rw [if_pos hlt, if_pos (by omega)]
            · rw [if_neg hlt, if_neg (by omega)]
        · intro i
          rw [e4 i]
          by_cases him : i = m
          · subst him
            rw [if_neg (by omega), if_pos (by omega), hdt]
          · by_cases hlt : i < m
            · rw [if_pos hlt, if_pos (by omega)]
            · rw [if_neg hlt, if_neg (by omega)]
        · rw [e5]
          show _ = s.model.total_resources - (isum (dTax s r) m + dTax s r m)
          rw [hdt]
          ring
        · rw [e9]
          show _ = isum (dTax s r) m + dTax s r m
          rw [hdt]
          ring

/-- Combined effect of the income-tax operation body on a state with dense
ids: each node loses `dTax` from balance and counter, the total drops by the
collected sum, and `total_tax_collected` grows (`+=`) by exactly that sum. -/
theorem applyIncomeTax_spec (s : Simulator) (r : ℚ) (hd : idsDense s) :
    numNodes (applyIncomeTax r s) = numNodes s ∧
    (∀ i, nodeId (applyIncomeTax r s) i = nodeId s i) ∧
    (∀ i, nodeRes (applyIncomeTax r s) i
        = nodeRes s i - if i < numNodes s then dTax s r i else 0) ∧
    (∀ i, nodeAdded (applyIncomeTax r s) i
        = nodeAdded s i - if i < numNodes s then dTax s r i else 0) ∧
    (applyIncomeTax r s).model.total_resources
      = s.model.total_resources - isum (dTax s r) (numNodes s) ∧
    (applyIncomeTax r s).total_tax_collected
      = s.total_tax_collected + isum (dTax s r) (numNodes s) ∧
    (applyIncomeTax r s).total_expenditure_incurred = s.total_expenditure_incurred ∧
    (applyIncomeTax r s).rng = s.rng := by
  obtain ⟨e1, e2, e3, e4, e5, e6, e7, e8, e9⟩ := taxFold_spec s r hd (numNodes s) (le_refl _)
  rw [applyIncomeTax_eq]
  exact ⟨e1, e2, e3, e4, e5, by rw [e6, e9], e7, e8⟩

/-- Per-node expenditure deduction: `min(resources, expenditure)`. -/
def dExp (s : Simulator) (e : Int) (i : Nat) : Int := min (nodeRes s i) e

/-- The expenditure loop state after the first `m` node positions. -/
def expFoldAux (e : Int) (s : Simulator) (m : Nat) : Simulator × Int :=
  (List.range m).foldl (expStep e) (s, 0)

theorem applyRequiredExpenditure_eq (e : Int) (s : Simulator) :
    applyRequiredExpenditure e s
      = { (expFoldAux e s (numNodes s)).1 with
          total_expenditure_incurred := (expFoldAux e s (numNodes s)).2 } := rfl

/-- Invariant of the expenditure loop, analogous to `taxFold_spec`. -/
theorem expFold_spec (s : Simulator) (e : Int) (hd : idsDense s) :
    ∀ m, m ≤ numNodes s →
    numNodes (expFoldAux e s m).1 = numNodes s ∧
    (∀ i, nodeId (expFoldAux e s m).1 i = nodeId s i) ∧
    (∀ i, nodeRes (expFoldAux e s m).1 i
        = nodeRes s i - if i < m then dExp s e i else 0) ∧
    (∀ i, nodeAdded (expFoldAux e s m).1 i
        = nodeAdded s i - if i < m then dExp s e i else 0) ∧
    (expFoldAux e s m).1.model.total_resources
      = s.model.total_resources - isum (dExp s e) m ∧
    (expFoldAux e s m).1.total_tax_collected = s.total_tax_collected ∧
    (expFoldAux e s m).1.total_expenditure_incurred = s.total_expenditure_incurred ∧
    (expFoldAux e s m).1.rng = s.rng ∧
    (expFoldAux e s m).2 = isum (dExp s e) m := by
  intro m
  induction m with
  | zero =>
      intro _
      refine ⟨rfl, fun i => rfl, ?_, ?_, ?_, rfl, rfl, rfl, rfl⟩
      · intro i
        show nodeRes s i = nodeRes s i - if i < 0 then dExp s e i else 0
        rw [if_neg (by omega)]
        ring
      · intro i
        show nodeAdded s i = nodeAdded s i - if i < 0 then dExp s e i else 0
        rw [if_neg (by omega)]
        ring
      · show s.model.total_resources = s.model.total_resources - 0
        ring
  | succ m ih =>
      intro hm
      obtain ⟨e1, e2, e3, e4, e5, e6, e7, e8, e9⟩ := ih (by omega)
      have hstep : expFoldAux e s (m + 1) = expStep e (expFoldAux e s m) m := by
        unfold expFoldAux
        rw [List.range_succ, List.foldl_append]
        rfl
      have hid : ((expFoldAux e s m).1.model.Nodes.getD m ⟨0, 0, 0⟩).id = m := by
        have h1 : nodeId (expFoldAux e s m).1 m = nodeId s m := e2 m
        have h2 : nodeId s m = m := hd m (by omega)
        exact h1.trans h2
      have hres : ((expFoldAux e s m).1.model.Nodes.getD m ⟨0, 0, 0⟩).resources
          = nodeRes s m := by
        have h1 : nodeRes (expFoldAux e s m).1 m
            = nodeRes s m - if m < m then dExp s e m else 0 := e3 m
        rw [if_neg (by omega)] at h1
        show nodeRes (expFoldAux e s m).1 m = nodeRes s m
        rw [h1]
        ring
      rw [hstep]
      simp only [expStep]
      rw [hid, hres]
      have hde : dExp s e m = min (nodeRes s m) e := rfl
      have hmN : m < numNodes (expFoldAux e s m).1 := by rw [e1]; omega
      refine ⟨?_, ?_, ?_, ?_, ?_, ?_, ?_, ?_, ?_⟩
      · show numNodes ((expFoldAux e s m).1.add_resources_to_node m _) = _
        rw [add_numNodes, e1]
      · intro i
        show nodeId ((expFoldAux e s m).1.add_resources_to_node m _) i = _
        rw [add_nodeId]
        exact e2 i
      · intro i
        show nodeRes ((expFoldAux e s m).1.add_resources_to_node m _) i = _
        rw [add_nodeRes _ _ _ hmN i, e3 i]
        by_cases him : m = i
        · subst him
          rw [if_pos rfl, if_neg (by omega), if_pos (by omega), hde]
          ring
        · rw [if_neg him]
          by_cases hlt : i < m
          · rw [if_pos hlt, if_pos (by omega)]
            ring
          · rw [if_neg hlt, if_neg (by omega)]
            ring
      · intro i
        show nodeAdded ((expFoldAux e s m).1.add_resources_to_node m _) i = _
        rw [add_nodeAdded _ _ _ hmN i, e4 i]
        by_cases him : m = i
        · subst him
          rw [if_pos rfl, if_neg (by omega), if_pos (by omega), hde]
          ring
        · rw [if_neg him]
          by_cases hlt : i < m
          · rw [if_pos hlt, if_pos (by omega)]
            ring
          · rw [if_neg hlt, if_neg (by omega)]
            ring
      · show ((expFoldAux e s m).1.add_resources_to_node m _).model.total_resources = _
        rw [add_total _ _ _ hmN, e5]
        show _ = s.model.total_resources - (isum (dExp s e) m + dExp s e m)
        rw [hde]
        ring
      · show ((expFoldAux e s m).1.add_resources_to_node m _).total_tax_collected = _
        rw [add_tax_counter]
        exact e6
      · show ((expFoldAux e s m).1.add_resources_to_node m _).total_expenditure_incurred = _
        rw [add_exp_counter]
        exact e7
      · show ((expFoldAux e s m).1.add_resources_to_node m _).rng = _
        rw [add_rng]
        exact e8
      · show (expFoldAux e s m).2 + min (nodeRes s m) e = isum (dExp s e) (m + 1)
        rw [e9]
        show _ = isum (dExp s e) m + dExp s e m
        rw [hde]

/-- Combined effect of the required-expenditure operation body: each node
loses `min(balance, amount)`, the total drops by the sum of the deductions,
and `total_expenditure_incurred` is *set* (assigned, not added) to that sum. -/
theorem applyRequiredExpenditure_spec (s : Simulator) (e : Int) (hd : idsDense s) :
    numNodes (applyRequiredExpenditure e s) = numNodes s ∧
    (∀ i, nodeId (applyRequiredExpenditure e s) i = nodeId s i) ∧
    (∀ i, nodeRes (applyRequiredExpenditure e s) i
        = nodeRes s i - if i < numNodes s then dExp s e i else 0) ∧
    (∀ i, nodeAdded (applyRequiredExpenditure e s) i
        = nodeAdded s i - if i < numNodes s then dExp s e i else 0) ∧
    (applyRequiredExpenditure e s).model.total_resources
      = s.model.total_resources - isum (dExp s e) (numNodes s) ∧
    (applyRequiredExpenditure e s).total_tax_collected = s.total_tax_collected ∧
    (applyRequiredExpenditure e s).total_expenditure_incurred
      = isum (dExp s e) (numNodes s) ∧
    (applyRequiredExpenditure e s).rng = s.rng := by
  obtain ⟨e1, e2, e3, e4, e5, e6, e7, e8, e9⟩ := expFold_spec s e hd (numNodes s) (le_refl _)
  rw [applyRequiredExpenditure_eq]
  exact ⟨e1, e2, e3, e4, e5, e6, e9, e8⟩

/-- For a nonnegative base and rate, Python's `int(a * r)` is exactly
`⌊a·r⌋` (truncation toward zero agrees with floor on nonnegatives). -/
theorem pyTruncMul_eq_floor (a : Int) (r : ℚ) (ha : 0 ≤ a) (hr : 0 ≤ r) :
    pyTruncMul a r = ⌊(a : ℚ) * r⌋ := by
  unfold pyTruncMul
  have hnum : 0 ≤ r.num := Rat.num_nonneg.mpr hr
  have h1 : Int.tdiv (a * r.num) (r.den : Int) = (a * r.num) / (r.den : Int) :=
    Int.tdiv_eq_ediv (by positivity) (by positivity)
  rw [h1, ← Rat.floor_intCast_div_natCast (a * r.num) r.den]
  congr 1
  push_cast
  rw [mul_div_assoc, Rat.num_div_den]

theorem nodeAdded_beyond (s : Simulator) (i : Nat) (h : numNodes s ≤ i) :
    nodeAdded s i = 0 := by
  unfold nodeAdded
  rw [List.getD_eq_default _ _ h]

theorem netSum_zero_of_ge (L : List (Nat × Int)) (n i : Nat)
    (hL : ∀ p ∈ L, p.1 < n) (hi : n ≤ i) : netSum L i = 0 := by
  induction L with
  | nil => rfl
  | cons p ps ih =>
      show (if p.1 = i then p.2 else 0) + netSum ps i = 0
      have hp : p.1 < n := hL p (by simp)
      rw [if_neg (by omega), ih (fun q hq => hL q (by simp [hq]))]
      ring

theorem model_create_length (N : Nat) (r0 : Int) :
    (Model.create N r0).Nodes.length = N := by
  unfold Model.create
  simp

theorem model_create_getD (N : Nat) (r0 : Int) (i : Nat) (hi : i < N) :
    (Model.create N r0).Nodes.getD i ⟨0, 0, 0⟩ = ⟨i, r0, 0⟩ := by
  unfold Model.create
  rw [List.getD_eq_getElem _ _ (by simp [hi])]
  simp

theorem create_numNodes (m : Model) (seed : Option Nat) (g : Nat) :
    numNodes (Simulator.create m seed g) = m.Nodes.length := rfl

theorem create_fenRepr (m : Model) (seed : Option Nat) (g : Nat)
    (hb : absSum (m.Nodes.map (fun nd => nd.resources)) < 2 ^ 63) :
    fenRepr (Simulator.create m seed g) := by
  show FenwickRepr (buildFenwick (m.Nodes.map (fun nd => nd.resources))).tree
    (m.Nodes.map (fun nd => nd.resources))
  exact buildFenwick_repr _ hb

theorem create_idsDense (N : Nat) (r0 : Int) (seed : Option Nat) (g : Nat) :
    idsDense (Simulator.create (Model.create N r0) seed g) := by
  intro i hi
  rw [create_numNodes, model_create_length] at hi
  show ((Model.create N r0).Nodes.getD i ⟨0, 0, 0⟩).id = i
  rw [model_create_getD N r0 i hi]

theorem create_nodeAdded (N : Nat) (r0 : Int) (seed : Option Nat) (g : Nat) (i : Nat) :
    nodeAdded (Simulator.create (Model.create N r0) seed g) i = 0 := by
  by_cases hi : i < N
  · show ((Model.create N r0).Nodes.getD i ⟨0, 0, 0⟩).resources_added = 0
    rw [model_create_getD N r0 i hi]
  · exact nodeAdded_beyond _ i (by rw [create_numNodes, model_create_length]; omega)

theorem model_create_resources (N : Nat) (r0 : Int) :
    (Model.create N r0).Nodes.map (fun nd => nd.resources) = List.replicate N r0 := by
  rw [List.eq_replicate_iff]
  constructor
  · unfold Model.create
    simp
  · intro b hb
    unfold Model.create at hb
    rw [List.map_map] at hb
    obtain ⟨i, _, rfl⟩ := List.mem_map.mp hb
    rfl

theorem create_totalInv (N : Nat) (r0 : Int) (seed : Option Nat) (g : Nat) :
    totalInv (Simulator.create (Model.create N r0) seed g) := by
  unfold totalInv
  show (Model.create N r0).total_resources
      = ((Model.create N r0).Nodes.map (fun nd => nd.resources)).sum
  rw [model_create_resources, List.sum_replicate]
  show (N : Int) * r0 = _
  rw [nsmul_eq_mul]

theorem execute_tax_eq (s : Simulator) (r : ℚ) (h1 : 0 ≤ r) (h2 : r ≤ 1) :
    SimulatorOperation.execute (SimulatorOperation.tax r) s
      = Except.ok (if r = 0 then s else applyIncomeTax r s) := by
  show (if 0 ≤ r ∧ r ≤ 1 then Except.ok (if r = 0 then s else applyIncomeTax r s)
      else Except.error "Tax rate must be between 0 and 1.") = _
  rw [if_pos ⟨h1, h2⟩]

theorem execute_tax_pos (s : Simulator) (r : ℚ) (h1 : 0 < r) (h2 : r ≤ 1) :
    SimulatorOperation.execute (SimulatorOperation.tax r) s
      = Except.ok (applyIncomeTax r s) := by
  rw [execute_tax_eq s r (le_of_lt h1) h2, if_neg (ne_of_gt h1)]

theorem execute_exp_eq (s : Simulator) (e : Int) :
    SimulatorOperation.execute (SimulatorOperation.expenditure e) s
      = Except.ok (if e = 0 then s else applyRequiredExpenditure e s) := rfl

theorem execute_uniform_eq (s : Simulator) (q : Nat) :
    SimulatorOperation.execute (SimulatorOperation.dist DistMethod.uniform q) s
      = Except.ok (execUniform q s) := rfl

/-- With a supplied seed, each epoch's `Simulator` construction re-seeds the
generator, so the whole run is independent of the incoming global state. -/
theorem msRunGo_seed_indep (sv : Nat) (ops : List SimulatorOperation)
    (e : Nat) (m : Model) (g0 g1 : Nat) :
    (msRunGo (some sv) ops e m g0).result = (msRunGo (some sv) ops e m g1).result ∧
    (msRunGo (some sv) ops e m g0).distributions
      = (msRunGo (some sv) ops e m g1).distributions ∧
    (msRunGo (some sv) ops e m g0).seedApplications
      = (msRunGo (some sv) ops e m g1).seedApplications := by
  cases e with
  | zero => exact ⟨rfl, rfl, rfl⟩
  | succ e =>
      have hcr : Simulator.create m (some sv) g0 = Simulator.create m (some sv) g1 := rfl
      simp only [msRunGo]
      rw [hcr]
      exact ⟨rfl, rfl, rfl⟩

/-- With a supplied seed, `random.seed` is invoked once per epoch: a
successful `e`-epoch run performs exactly `e` seed applications. -/
theorem msRunGo_seed_count (sv : Nat) (ops : List SimulatorOperation) :
    ∀ (e : Nat) (m : Model) (g : Nat),
      (msRunGo (some sv) ops e m g).result.isOk = true →
      (msRunGo (some sv) ops e m g).seedApplications = e := by
  intro e
  induction e with
  | zero => intro m g _; rfl
  | succ e ih =>
      intro m g hok
      simp only [msRunGo] at hok ⊢
      cases hrun : Simulator.run ops (Simulator.create m (some sv) g) with
      | error msg =>
          rw [hrun] at hok
          exact Bool.noConfusion hok
      | ok s2 =>
          rw [hrun] at hok
          show (if (some sv).isSome then 1 else 0)
              + (msRunGo (some sv) ops e s2.model s2.rng).seedApplications = e + 1
          have hc := ih s2.model s2.rng hok
          rw [hc]
          simp [Nat.add_comm]

/-! ## Concrete states and result extractors used by the claims -/

/-- Final total and per-epoch snapshots of an orchestrator run. -/
def runOutcome : Except String (Simulator × List (List Int)) → Option (Int × List (List Int))
  | Except.ok p => some (p.1.model.total_resources, p.2)
  | Except.error _ => none

/-- Distribution of a (possibly failed) epoch run. -/
def runDist : Except String Simulator → Option (List Int)
  | Except.ok s => some s.get_resource_distribution
  | Except.error _ => none

/-- Per-node `resources_added` counters of a (possibly failed) epoch run. -/
def runAddedCounters : Except String Simulator → Option (List Int)
  | Except.ok s => some (s.model.Nodes.map (fun nd => nd.resources_added))
  | Except.error _ => none

/-- `total_tax_collected` of a (possibly failed) epoch run. -/
def runTaxCollected : Except String Simulator → Option Int
  | Except.ok s => some s.total_tax_collected
  | Except.error _ => none

/-- `total_expenditure_incurred` of a (possibly failed) epoch run. -/
def runExpIncurred : Except String Simulator → Option Int
  | Except.ok s => some s.total_expenditure_incurred
  | Except.error _ => none

/-- The spec's two-epoch scenario: N = 5 nodes of 10,
operations `[UniformDistribution(20), RequiredExpenditure(15)]`,
uniform carry-over. -/
def msimC1 : MultiStepSimulatorSpec :=
  ⟨Model.create 5 10, 2, none,
    [SimulatorOperation.dist DistMethod.uniform 20, SimulatorOperation.expenditure 15],
    DistMethod.uniform⟩

/-- A freshly constructed one-node simulator holding 10 units. -/
def simStart1 : Simulator := Simulator.create (Model.create 1 10) none 0

/-- A freshly constructed two-node simulator holding 5 units each. -/
def simW2 : Simulator := Simulator.create (Model.create 2 5) none 0

/-- A seeded two-epoch multi-step run (the `src/rgrr/simulator.py`
`MultiStepSimulator`). -/
def msC3 : MultiStepSimulator :=
  ⟨Model.create 2 3, 2, some 42, [SimulatorOperation.dist DistMethod.uniform 4]⟩

/-- State of `simStart1` after `[RequiredExpenditure(1)]` — the state the tax
operation observes in the two-operation run below. -/
def resC6mid : Except String Simulator :=
  Simulator.run [SimulatorOperation.expenditure 1] simStart1

/-- Result of running `[RequiredExpenditure(1), IncomeTax(1/2)]` on one node
holding 10. -/
def resC6 : Except String Simulator :=
  Simulator.run [SimulatorOperation.expenditure 1,
    SimulatorOperation.tax (mkRat 1 2)] simStart1

/-- Result of running `[RequiredExpenditure(1), RequiredExpenditure(1)]` on
one node holding 10. -/
def resC7 : Except String Simulator :=
  Simulator.run [SimulatorOperation.expenditure 1, SimulatorOperation.expenditure 1] simStart1

instance decidableIdsDense (s : Simulator) : Decidable (idsDense s) :=
  decidable_of_iff (∀ i, i < numNodes s → nodeId s i = i) Iff.rfl

/-! ## The claims -/

/-- C1: in the spec's two-epoch concrete scenario (N=5 nodes, 10 each,
per-epoch operations UniformDistribution(20) then RequiredExpenditure(15),
uniform carry-over), the multi-epoch run ends with `total_resources = 15`:
epoch 1 ends all-zero with 70 incurred, the 70 are redistributed uniformly at
the start of epoch 2 before its operations run, and epoch 2 ends 3 each.
(The orchestrator is `Modelled from the spec`; see `specRunGo`.) -/
theorem claim_C1 :
    runOutcome (msimC1.run 0) = some (15, [[0, 0, 0, 0, 0], [3, 3, 3, 3, 3]]) := by
  decide

/-- C2: executing IncomeTax with rate in (0,1] succeeds and decreases
`total_resources` by exactly the tax collected in that execution; no part is
re-injected within the operation — every balance changes by exactly its own
(nonnegative) deduction, so no balance increases — and the expenditure
counter, generator state and node count are untouched. -/
theorem claim_C2 (s : Simulator) (r : ℚ) (h1 : 0 < r) (h2 : r ≤ 1) (hd : idsDense s) :
    SimulatorOperation.execute (SimulatorOperation.tax r) s
        = Except.ok (applyIncomeTax r s) ∧
    (applyIncomeTax r s).model.total_resources
        = s.model.total_resources
          - ((applyIncomeTax r s).total_tax_collected - s.total_tax_collected) ∧
    (∀ i, i < numNodes s →
      nodeRes (applyIncomeTax r s) i = nodeRes s i - dTax s r i ∧
      nodeRes (applyIncomeTax r s) i ≤ nodeRes s i) ∧
    (applyIncomeTax r s).total_expenditure_incurred = s.total_expenditure_incurred ∧
    (applyIncomeTax r s).rng = s.rng ∧
    numNodes (applyIncomeTax r s) = numNodes s := by
  obtain ⟨e1, e2, e3, e4, e5, e6, e7, e8⟩ := applyIncomeTax_spec s r hd
  refine ⟨execute_tax_pos s r h1 h2, ?_, ?_, e7, e8, e1⟩
  · rw [e5, e6]
    ring
  · intro i hi
    have h := e3 i
    rw [if_pos hi] at h
    have hnn := dTax_nonneg s r i
    exact ⟨h, by omega⟩

theorem claim_C2_witness :
    (0 < mkRat 1 2 ∧ mkRat 1 2 ≤ 1 ∧ idsDense simW2) ∧
    (SimulatorOperation.execute (SimulatorOperation.tax (mkRat 1 2)) simW2
        = Except.ok (applyIncomeTax (mkRat 1 2) simW2) ∧
    (applyIncomeTax (mkRat 1 2) simW2).model.total_resources
        = simW2.model.total_resources
          - ((applyIncomeTax (mkRat 1 2) simW2).total_tax_collected
              - simW2.total_tax_collected) ∧
    (∀ i, i < numNodes simW2 →
      nodeRes (applyIncomeTax (mkRat 1 2) simW2) i
          = nodeRes simW2 i - dTax simW2 (mkRat 1 2) i ∧
      nodeRes (applyIncomeTax (mkRat 1 2) simW2) i ≤ nodeRes simW2 i) ∧
    (applyIncomeTax (mkRat 1 2) simW2).total_expenditure_incurred
        = simW2.total_expenditure_incurred ∧
    (applyIncomeTax (mkRat 1 2) simW2).rng = simW2.rng ∧
    numNodes (applyIncomeTax (mkRat 1 2) simW2) = numNodes simW2) :=
  ⟨⟨by decide, by decide, by decide⟩,
    claim_C2 simW2 (mkRat 1 2) (by decide) (by decide) (by decide)⟩

/-- C3 counterexample: in a 2-epoch run of the `src/rgrr/simulator.py`
`MultiStepSimulator` with seed 42, `random.seed` is applied twice — once at
each epoch's `Simulator` construction — not exactly once before the first
epoch. -/
theorem claim_C3_counterexample :
    (msC3.run 0).seedApplications = 2 ∧ msC3.epochs = 2 ∧ (2 : Nat) ≠ 1 := by
  refine ⟨by decide, rfl, by decide⟩

/-- C3 (amended): with a supplied seed the run re-applies the seed at the
start of every epoch — a successful `E`-epoch run performs exactly `E` seed
applications, not one — and reproducibility still holds: the run's outcome
and its sequence of per-epoch distributions are independent of the incoming
global generator state (hence identical seed and operations give
byte-identical distribution sequences across repeated runs). -/
theorem claim_C3 (m : MultiStepSimulator) (sv : Nat) (hs : m.seed = some sv) (g0 g1 : Nat) :
    ((m.run g0).result = (m.run g1).result ∧
      (m.run g0).distributions = (m.run g1).distributions ∧
      (m.run g0).seedApplications = (m.run g1).seedApplications) ∧
    ((m.run g0).result.isOk = true → (m.run g0).seedApplications = m.epochs) := by
  unfold MultiStepSimulator.run
  rw [hs]
  exact ⟨msRunGo_seed_indep sv m.operations m.epochs m.model g0 g1,
    msRunGo_seed_count sv m.operations m.epochs m.model g0⟩

theorem claim_C3_witness :
    msC3.seed = some 42 ∧
    (((msC3.run 0).result = (msC3.run 5).result ∧
      (msC3.run 0).distributions = (msC3.run 5).distributions ∧
      (msC3.run 0).seedApplications = (msC3.run 5).seedApplications) ∧
    ((msC3.run 0).result.isOk = true → (msC3.run 0).seedApplications = msC3.epochs)) :=
  ⟨rfl, claim_C3 msC3 42 rfl 0 5⟩

/-- C4 counterexample: the prefix-query half of the invariant does *not* hold
for arbitrary signed amounts, because the Fenwick array is numpy int64.  On
one node starting at 0, two in-range mutations of `2^62` each drive the sole
Fenwick entry to `2^63`, which wraps to `−2^63`; the node balance and the
cached total — plain Python ints — correctly read `2^63`, so the prefix query
over `[0, 0]` no longer equals the balance sum (it is off by `2^64`). -/
theorem claim_C4_counterexample :
    (∀ p ∈ [((0 : Nat), ((2 : Int) ^ 62)), (0, 2 ^ 62)], p.1 < 1) ∧
    (applyAdds [(0, 2 ^ 62), (0, 2 ^ 62)]
        (Simulator.create (Model.create 1 0) none 0)).model.total_resources
      = (resList (applyAdds [(0, 2 ^ 62), (0, 2 ^ 62)]
          (Simulator.create (Model.create 1 0) none 0))).sum ∧
    (applyAdds [(0, 2 ^ 62), (0, 2 ^ 62)]
        (Simulator.create (Model.create 1 0) none 0)).fenwick_tree.prefix_sum 0
      = -(2 ^ 63) ∧
    csum (resList (applyAdds [(0, 2 ^ 62), (0, 2 ^ 62)]
        (Simulator.create (Model.create 1 0) none 0))) (0 + 1) = 2 ^ 63 ∧
    ((-(2 ^ 63) : Int) ≠ 2 ^ 63) := by
  refine ⟨by decide, by decide, by decide, by decide, by decide⟩

/-- C4 (amended): starting from a freshly constructed simulator and applying
any sequence of in-range `add_resources_to_node` mutations (any signed
amounts), the cached total equals the sum of all node balances — balances and
the total are unbounded Python ints, so this half needs no size restriction.
Every prefix query over `[0, i]` equals the sum of the balances of nodes
`0..i` *provided* the int64 Fenwick entries never wrap, for which it suffices
that the sum of the absolute balances stays below `2^63` after every prefix
of the mutation sequence (initial state included); the counterexample above
shows the proviso cannot be dropped.  A single `add_resources_to_node` with a
delta inside int64 performs the four updates — balance, per-epoch counter,
cached total, Fenwick weight — together, as one function (a delta outside
int64 would instead raise numpy `OverflowError` after the first three
updates, a failure outside this embedding). -/
theorem claim_C4 (N : Nat) (r0 : Int) (seed : Option Nat) (g : Nat)
    (L : List (Nat × Int)) (hL : ∀ p ∈ L, p.1 < N) :
    (applyAdds L (Simulator.create (Model.create N r0) seed g)).model.total_resources
      = (resList (applyAdds L (Simulator.create (Model.create N r0) seed g))).sum ∧
    ((∀ m, m ≤ L.length →
        absSum (resList (applyAdds (L.take m)
          (Simulator.create (Model.create N r0) seed g))) < 2 ^ 63) →
      ∀ i, i < N →
      (applyAdds L (Simulator.create (Model.create N r0) seed g)).fenwick_tree.prefix_sum i
        = csum (resList (applyAdds L (Simulator.create (Model.create N r0) seed g))) (i + 1)) ∧
    (∀ (s2 : Simulator) (id2 : Nat) (amt : Int), id2 < numNodes s2 →
      -(2 ^ 63) ≤ amt → amt < 2 ^ 63 →
      (s2.add_resources_to_node id2 amt).model.total_resources
          = s2.model.total_resources + amt ∧
      nodeRes (s2.add_resources_to_node id2 amt) id2 = nodeRes s2 id2 + amt ∧
      nodeAdded (s2.add_resources_to_node id2 amt) id2 = nodeAdded s2 id2 + amt ∧
      (s2.add_resources_to_node id2 amt).fenwick_tree = s2.fenwick_tree.add id2 amt) := by
  have hL2 : ∀ p ∈ L, p.1 < numNodes (Simulator.create (Model.create N r0) seed g) := by
    intro p hp
    rw [create_numNodes, model_create_length]
    exact hL p hp
  obtain ⟨e1, e2, e3, e4, e5, e6, e7, e8, e9⟩ :=
    applyAdds_spec L (Simulator.create (Model.create N r0) seed g) hL2
  refine ⟨?_, ?_, ?_⟩
  · exact e9 (create_totalInv N r0 seed g)
  · intro hB i hi
    have hrepr0 : fenRepr (Simulator.create (Model.create N r0) seed g) :=
      create_fenRepr (Model.create N r0) seed g (hB 0 (Nat.zero_le _))
    have hrepr := applyAdds_fenRepr L (Simulator.create (Model.create N r0) seed g)
      hL2 hrepr0 hB
    refine prefix_sum_repr _ _ hrepr i ?_
    rw [resList_length, e1, create_numNodes, model_create_length]
    exact hi
  · intro s2 id2 amt h2 _ _
    refine ⟨add_total s2 id2 amt h2, ?_, ?_, add_fenwick s2 id2 amt h2⟩
    · rw [add_nodeRes s2 id2 amt h2 id2, if_pos rfl]
    · rw [add_nodeAdded s2 id2 amt h2 id2, if_pos rfl]

theorem claim_C4_witness :
    (∀ p ∈ [((0 : Nat), (5 : Int)), (2, -3), (0, 1)], p.1 < 3) ∧
    ((applyAdds [(0, 5), (2, -3), (0, 1)]
        (Simulator.create (Model.create 3 10) none 0)).model.total_resources
      = (resList (applyAdds [(0, 5), (2, -3), (0, 1)]
          (Simulator.create (Model.create 3 10) none 0))).sum ∧
    ((∀ m, m ≤ ([((0 : Nat), (5 : Int)), (2, -3), (0, 1)] : List (Nat × Int)).length →
        absSum (resList (applyAdds (([((0 : Nat), (5 : Int)), (2, -3), (0, 1)]
            : List (Nat × Int)).take m)
          (Simulator.create (Model.create 3 10) none 0))) < 2 ^ 63) →
      ∀ i, i < 3 →
      (applyAdds [(0, 5), (2, -3), (0, 1)]
          (Simulator.create (Model.create 3 10) none 0)).fenwick_tree.prefix_sum i
        = csum (resList (applyAdds [(0, 5), (2, -3), (0, 1)]
            (Simulator.create (Model.create 3 10) none 0))) (i + 1)) ∧
    (∀ (s2 : Simulator) (id2 : Nat) (amt : Int), id2 < numNodes s2 →
      -(2 ^ 63) ≤ amt → amt < 2 ^ 63 →
      (s2.add_resources_to_node id2 amt).model.total_resources
          = s2.model.total_resources + amt ∧
      nodeRes (s2.add_resources_to_node id2 amt) id2 = nodeRes s2 id2 + amt ∧
      nodeAdded (s2.add_resources_to_node id2 amt) id2 = nodeAdded s2 id2 + amt ∧
      (s2.add_resources_to_node id2 amt).fenwick_tree = s2.fenwick_tree.add id2 amt)) :=
  ⟨by decide, claim_C4 3 10 none 0 [(0, 5), (2, -3), (0, 1)] (by decide)⟩

/-- Five weights of `2^62`: each weight fits int64, their total `5 · 2^62`
does not.  Used by the C5 counterexample. -/
def ws62 : List Int := [2 ^ 62, 2 ^ 62, 2 ^ 62, 2 ^ 62, 2 ^ 62]

/-- C5 counterexample: the claim's preconditions (nonnegative weights,
`1 ≤ k ≤ total`) hold for `ws62` and `k = 2^62 + 1`, yet `find_kth` returns
`5` — not even an index in `[0, 5)` — although the smallest index whose
cumulative weight reaches `k` is `1`.  Building the tree wraps the int64
entries covering ranges with sums `2^63` and `2^64` to `−2^63` and `0`, and
the descent then walks past every node. -/
theorem claim_C5_counterexample :
    (∀ x ∈ ws62, 0 ≤ x) ∧
    (1 : Int) ≤ 2 ^ 62 + 1 ∧ ((2 : Int) ^ 62 + 1) ≤ csum ws62 ws62.length ∧
    (buildFenwick ws62).find_kth (2 ^ 62 + 1) = 5 ∧
    ¬ (buildFenwick ws62).find_kth (2 ^ 62 + 1) < ws62.length ∧
    ((2 : Int) ^ 62 + 1) ≤ csum ws62 (1 + 1) ∧
    csum ws62 (0 + 1) < 2 ^ 62 + 1 ∧ (1 : Nat) < 5 := by
  have hsz : (buildFenwick ws62).tree.size = 6 := by decide
  have hbl : pyBitLength (buildFenwick ws62).tree.size = 3 := by
    rw [hsz]
    show pyBitLength 6 = 3
    unfold pyBitLength
    rw [if_neg (by decide)]
    have hlog : Nat.log2 6 = 2 := by
      rw [Nat.log2, if_pos (by decide)]
      rw [Nat.log2, if_pos (by decide)]
      rw [Nat.log2, if_neg (by decide)]
    rw [hlog]
  have hfind : (buildFenwick ws62).find_kth (2 ^ 62 + 1) = 5 := by
    unfold FenwickTree.find_kth
    rw [hbl]
    decide
  refine ⟨by decide, by decide, by decide, hfind, ?_, by decide, by decide, by decide⟩
  rw [hfind]
  decide

/-- C5 (amended): for every weight list with nonnegative entries *whose total
fits the tree's int64 entries* (`total < 2^63`) and every `1 ≤ k ≤ total`,
`find_kth k` on the tree built from those weights returns the smallest index
`i ∈ [0, N)` whose cumulative weight `0..i` reaches `k` (so drawing `k`
uniformly in `[1, total]` selects node `i` with probability proportional to
its weight).  When the total exceeds int64 the build wraps and the result can
be wrong — see the counterexample above. -/
theorem claim_C5 (ws : List Int) (k : Int) (hnn : ∀ x ∈ ws, 0 ≤ x)
    (hfit : csum ws ws.length < 2 ^ 63)
    (hk1 : 1 ≤ k) (hkN : k ≤ csum ws ws.length) :
    (buildFenwick ws).find_kth k < ws.length ∧
    k ≤ csum ws ((buildFenwick ws).find_kth k + 1) ∧
    ∀ m, m < (buildFenwick ws).find_kth k → csum ws (m + 1) < k := by
  have habs : absSum ws < 2 ^ 63 := by
    rw [absSum_of_nonneg ws hnn, ← csum_length_eq_sum]
    exact hfit
  obtain ⟨h1, h2, h3⟩ :=
    find_kth_spec (buildFenwick ws) ws (buildFenwick_repr ws habs) k hk1 hkN
  refine ⟨h3, h2, ?_⟩
  intro m hm
  have hmono := csum_mono ws hnn (show m + 1 ≤ (buildFenwick ws).find_kth k by omega)
  omega

theorem claim_C5_witness :
    ((∀ x ∈ [(2 : Int), 0, 3], 0 ≤ x) ∧ csum [2, 0, 3] 3 < 2 ^ 63 ∧
      (1 : Int) ≤ 3 ∧ (3 : Int) ≤ csum [2, 0, 3] 3) ∧
    ((buildFenwick [2, 0, 3]).find_kth 3 < ([2, 0, 3] : List Int).length ∧
    (3 : Int) ≤ csum [2, 0, 3] ((buildFenwick [2, 0, 3]).find_kth 3 + 1) ∧
    ∀ m, m < (buildFenwick [2, 0, 3]).find_kth 3 → csum [2, 0, 3] (m + 1) < 3) :=
  ⟨⟨by decide, by decide, by decide, by decide⟩,
    claim_C5 [2, 0, 3] 3 (by decide) (by decide) (by decide) (by decide)⟩

/-- C6 counterexample: run `[RequiredExpenditure(1), IncomeTax(1/2)]` on one
node holding 10.  After the expenditure, the node's `resources_added` is −1
and its balance 9.  The claim says the tax deducts exactly
`floor(a·r) = ⌊−1 · 1/2⌋ = −1`, which would leave balance `9 − (−1) = 10`;
the code computes `int(−0.5) = 0`, skips non-positive taxes, and leaves the
balance at 9 with nothing collected. -/
theorem claim_C6_counterexample :
    runAddedCounters resC6mid = some [-1] ∧
    runDist resC6mid = some [9] ∧
    runDist resC6 = some [9] ∧
    runTaxCollected resC6 = some 0 ∧
    ⌊((-1 : ℚ) * mkRat 1 2)⌋ = -1 ∧
    ((9 : Int) ≠ 9 - ⌊((-1 : ℚ) * mkRat 1 2)⌋) := by
  refine ⟨by decide, by decide, by decide, by decide, ?_, ?_⟩
  · rw [Rat.mkRat_eq_div]
    norm_num
  · rw [Rat.mkRat_eq_div]
    norm_num

/-- C6 (amended): for every rate `r ∈ [0,1]`, the operation validates and
runs; every node with *nonnegative* `resources_added = a` is deducted exactly
`⌊a·r⌋` (for negative `a` the code deducts nothing, since it only deducts
when `int(a·r)` is positive — in general the deduction is `dTax`);
`total_tax_collected` grows by exactly the sum of the per-node deductions;
and a rate of 0 is a no-op. -/
theorem claim_C6 (s : Simulator) (r : ℚ) (h1 : 0 ≤ r) (h2 : r ≤ 1) (hd : idsDense s) :
    SimulatorOperation.execute (SimulatorOperation.tax r) s
        = Except.ok (if r = 0 then s else applyIncomeTax r s) ∧
    (∀ i, i < numNodes s →
        nodeRes (applyIncomeTax r s) i = nodeRes s i - dTax s r i) ∧
    (∀ i, i < numNodes s → 0 ≤ nodeAdded s i →
        dTax s r i = ⌊(nodeAdded s i : ℚ) * r⌋) ∧
    (applyIncomeTax r s).total_tax_collected
        = s.total_tax_collected + isum (dTax s r) (numNodes s) ∧
    (r = 0 → SimulatorOperation.execute (SimulatorOperation.tax r) s = Except.ok s) := by
  obtain ⟨e1, e2, e3, e4, e5, e6, e7, e8⟩ := applyIncomeTax_spec s r hd
  refine ⟨execute_tax_eq s r h1 h2, ?_, ?_, e6, ?_⟩
  · intro i hi
    have h := e3 i
    rw [if_pos hi] at h
    exact h
  · intro i _ ha
    have hfl : pyTruncMul (nodeAdded s i) r = ⌊(nodeAdded s i : ℚ) * r⌋ :=
      pyTruncMul_eq_floor (nodeAdded s i) r ha h1
    have hnn : 0 ≤ ⌊(nodeAdded s i : ℚ) * r⌋ := by
      rw [Int.floor_nonneg]
      have hca : (0 : ℚ) ≤ (nodeAdded s i : ℚ) := by exact_mod_cast ha
      exact mul_nonneg hca h1
    unfold dTax
    rw [hfl]
    by_cases hp : 0 < ⌊(nodeAdded s i : ℚ) * r⌋
    · rw [if_pos hp]
    · rw [if_neg hp]
      omega
  · intro hr0
    rw [execute_tax_eq s r h1 h2, if_pos hr0]

theorem claim_C6_witness :
    (0 ≤ mkRat 1 2 ∧ mkRat 1 2 ≤ 1 ∧ idsDense simW2) ∧
    (SimulatorOperation.execute (SimulatorOperation.tax (mkRat 1 2)) simW2
        = Except.ok (if mkRat 1 2 = 0 then simW2 else applyIncomeTax (mkRat 1 2) simW2) ∧
    (∀ i, i < numNodes simW2 →
        nodeRes (applyIncomeTax (mkRat 1 2) simW2) i
          = nodeRes simW2 i - dTax simW2 (mkRat 1 2) i) ∧
    (∀ i, i < numNodes simW2 → 0 ≤ nodeAdded simW2 i →
        dTax simW2 (mkRat 1 2) i = ⌊(nodeAdded simW2 i : ℚ) * mkRat 1 2⌋) ∧
    (applyIncomeTax (mkRat 1 2) simW2).total_tax_collected
        = simW2.total_tax_collected + isum (dTax simW2 (mkRat 1 2)) (numNodes simW2) ∧
    (mkRat 1 2 = 0 →
      SimulatorOperation.execute (SimulatorOperation.tax (mkRat 1 2)) simW2
        = Except.ok simW2)) :=
  ⟨⟨by decide, by decide, by decide⟩,
    claim_C6 simW2 (mkRat 1 2) (by decide) (by decide) (by decide)⟩

/-- C7 counterexample: run `[RequiredExpenditure(1), RequiredExpenditure(1)]`
on one node holding 10.  Each execution deducts `min(balance, 1) = 1` (the
balance ends at 8), so a counter that *accumulates* `Σ min(balance_i, amount)`
would read `1 + 1 = 2`; the code assigns instead of accumulating, and
`total_expenditure_incurred` reads 1. -/
theorem claim_C7_counterexample :
    runDist resC7 = some [8] ∧
    runExpIncurred resC7 = some 1 ∧
    ((1 : Int) ≠ 1 + 1) := by
  refine ⟨by decide, by decide, by decide⟩

/-- C7 (amended): for every expenditure amount and population state with
dense ids, the operation runs without error and deducts
`min(balance, amount)` from each node; balances that were nonnegative stay
nonnegative; the total-expenditure counter is *overwritten with* (not added
to) this execution's sum `Σ min(balance_i, amount)`; `amount = 0` is a
no-op. -/
theorem claim_C7 (s : Simulator) (e : Int) (he : 0 ≤ e) (hd : idsDense s) :
    SimulatorOperation.execute (SimulatorOperation.expenditure e) s
        = Except.ok (if e = 0 then s else applyRequiredExpenditure e s) ∧
    (∀ i, i < numNodes s →
        nodeRes (applyRequiredExpenditure e s) i
          = nodeRes s i - min (nodeRes s i) e) ∧
    (∀ i, i < numNodes s → 0 ≤ nodeRes s i →
        0 ≤ nodeRes (applyRequiredExpenditure e s) i) ∧
    (applyRequiredExpenditure e s).total_expenditure_incurred
        = isum (dExp s e) (numNodes s) ∧
    (e = 0 → SimulatorOperation.execute (SimulatorOperation.expenditure e) s
        = Except.ok s) := by
  obtain ⟨e1, e2, e3, e4, e5, e6, e7, e8⟩ := applyRequiredExpenditure_spec s e hd
  have hpt : ∀ i, i < numNodes s →
      nodeRes (applyRequiredExpenditure e s) i = nodeRes s i - min (nodeRes s i) e := by
    intro i hi
    have h := e3 i
    rw [if_pos hi] at h
    exact h
  refine ⟨execute_exp_eq s e, hpt, ?_, e7, ?_⟩
  · intro i hi hnn
    rw [hpt i hi]
    omega
  · intro he0
    rw [execute_exp_eq s e, if_pos he0]

theorem claim_C7_witness :
    ((0 : Int) ≤ 4 ∧ idsDense simW2) ∧
    (SimulatorOperation.execute (SimulatorOperation.expenditure 4) simW2
        = Except.ok (if (4 : Int) = 0 then simW2 else applyRequiredExpenditure 4 simW2) ∧
    (∀ i, i < numNodes simW2 →
        nodeRes (applyRequiredExpenditure 4 simW2) i
          = nodeRes simW2 i - min (nodeRes simW2 i) 4) ∧
    (∀ i, i < numNodes simW2 → 0 ≤ nodeRes simW2 i →
        0 ≤ nodeRes (applyRequiredExpenditure 4 simW2) i) ∧
    (applyRequiredExpenditure 4 simW2).total_expenditure_incurred
        = isum (dExp simW2 4) (numNodes simW2) ∧
    ((4 : Int) = 0 → SimulatorOperation.execute (SimulatorOperation.expenditure 4) simW2
        = Except.ok simW2)) :=
  ⟨⟨by decide, by decide⟩, claim_C7 simW2 4 (by decide) (by decide)⟩

/-- C8: for every `Q ≥ 0` and nonempty population, UniformDistribution(Q)
runs without randomness (generator state untouched) and deterministically
adds `floor(Q/N)` to every node plus 1 extra to each of the first `Q mod N`
nodes in id order; the total grows by exactly `Q`, and starting from equal
balances the spread `max − min` afterwards is at most 1 (stated pairwise). -/
theorem claim_C8 (s : Simulator) (q : Nat) (hn : 0 < numNodes s) :
    SimulatorOperation.execute (SimulatorOperation.dist DistMethod.uniform q) s
        = Except.ok (execUniform q s) ∧
    (∀ i, i < numNodes s →
      nodeRes (execUniform q s) i
        = nodeRes s i + ((q / numNodes s : Nat) : Int)
            + (if i < q % numNodes s then 1 else 0)) ∧
    (execUniform q s).model.total_resources = s.model.total_resources + q ∧
    ((∀ i j, i < numNodes s → j < numNodes s → nodeRes s i = nodeRes s j) →
      ∀ i j, i < numNodes s → j < numNodes s →
        nodeRes (execUniform q s) i - nodeRes (execUniform q s) j ≤ 1) ∧
    (execUniform q s).rng = s.rng := by
  obtain ⟨e1, e2, e3, e4, e5, e6, e7, e8, e9⟩ := execUniform_spec q s hn
  have hpt : ∀ i, i < numNodes s →
      nodeRes (execUniform q s) i
        = nodeRes s i + ((q / numNodes s : Nat) : Int)
            + (if i < q % numNodes s then 1 else 0) := by
    intro i hi
    rw [e2 i hi]
    unfold uniformAmount
    ring
  refine ⟨execute_uniform_eq s q, hpt, e4, ?_, e8⟩
  intro heq i j hi hj
  rw [hpt i hi, hpt j hj, heq i j hi hj]
  by_cases h1 : i < q % numNodes s
  · by_cases h2 : j < q % numNodes s
    · rw [if_pos h1, if_pos h2]; omega
    · rw [if_pos h1, if_neg h2]; omega
  · by_cases h2 : j < q % numNodes s
    · rw [if_neg h1, if_pos h2]; omega
    · rw [if_neg h1, if_neg h2]; omega

theorem claim_C8_witness :
    (0 < numNodes (Simulator.create (Model.create 3 10) none 0)) ∧
    (SimulatorOperation.execute (SimulatorOperation.dist DistMethod.uniform 7)
          (Simulator.create (Model.create 3 10) none 0)
        = Except.ok (execUniform 7 (Simulator.create (Model.create 3 10) none 0)) ∧
    (∀ i, i < numNodes (Simulator.create (Model.create 3 10) none 0) →
      nodeRes (execUniform 7 (Simulator.create (Model.create 3 10) none 0)) i
        = nodeRes (Simulator.create (Model.create 3 10) none 0) i
            + ((7 / numNodes (Simulator.create (Model.create 3 10) none 0) : Nat) : Int)
            + (if i < 7 % numNodes (Simulator.create (Model.create 3 10) none 0) then 1 else 0)) ∧
    (execUniform 7 (Simulator.create (Model.create 3 10) none 0)).model.total_resources
        = (Simulator.create (Model.create 3 10) none 0).model.total_resources + 7 ∧
    ((∀ i j, i < numNodes (Simulator.create (Model.create 3 10) none 0) →
        j < numNodes (Simulator.create (Model.create 3 10) none 0) →
        nodeRes (Simulator.create (Model.create 3 10) none 0) i
          = nodeRes (Simulator.create (Model.create 3 10) none 0) j) →
      ∀ i j, i < numNodes (Simulator.create (Model.create 3 10) none 0) →
        j < numNodes (Simulator.create (Model.create 3 10) none 0) →
        nodeRes (execUniform 7 (Simulator.create (Model.create 3 10) none 0)) i
          - nodeRes (execUniform 7 (Simulator.create (Model.create 3 10) none 0)) j ≤ 1) ∧
    (execUniform 7 (Simulator.create (Model.create 3 10) none 0)).rng
        = (Simulator.create (Model.create 3 10) none 0).rng) :=
  ⟨by decide, claim_C8 (Simulator.create (Model.create 3 10) none 0) 7 (by decide)⟩

theorem addGo_beyond (delta : Int) (fuel : Nat) (t : Array Int) (j : Nat)
    (h : t.size ≤ j) : addGo delta fuel t j = t := by
  cases fuel with
  | zero => rfl
  | succ fuel =>
      show (if h2 : j < t.size then _ else t) = t
      rw [dif_neg (by omega)]

/-- C9 counterexample: at index `5 ∉ [0, 3)` the prefix-weight-index update
(`FenwickTree.add`, exposed as `update`) does *not* fail with an out-of-range
error — it contains no range check at all — it returns normally with the
weight array unchanged.  (The range check the spec describes lives one level
up, in `Simulator.add_resources_to_node`'s `assert`.) -/
theorem claim_C9_counterexample :
    FenwickTree.update (FenwickTree.create 3) 5 7 = Except.ok (FenwickTree.create 3) := by
  have h : (FenwickTree.create 3).add 5 7 = FenwickTree.create 3 := by decide
  unfold FenwickTree.update
  rw [h]

/-- C9 (amended): for every index at or beyond the tree's capacity, the
update is a silent no-op: it raises nothing (always `ok`) and leaves the
weight array unchanged. -/
theorem claim_C9 (t : FenwickTree) (i : Nat) (delta : Int)
    (h : t.tree.size ≤ i + 1) :
    FenwickTree.update t i delta = Except.ok t ∧ t.add i delta = t := by
  have hadd : t.add i delta = t := by
    show (⟨addGo delta t.tree.size t.tree (i + 1)⟩ : FenwickTree) = t
    rw [addGo_beyond delta _ _ _ h]
  refine ⟨?_, hadd⟩
  unfold FenwickTree.update
  rw [hadd]

theorem claim_C9_witness :
    ((FenwickTree.create 3).tree.size ≤ 5 + 1) ∧
    (FenwickTree.update (FenwickTree.create 3) 5 9 = Except.ok (FenwickTree.create 3) ∧
      (FenwickTree.create 3).add 5 9 = FenwickTree.create 3) :=
  ⟨by decide, claim_C9 (FenwickTree.create 3) 5 9 (by decide)⟩

/-- C10: after the epoch reset, `resources_added` equals the net *signed* sum
of all deltas applied to that node since the epoch started — deductions
decrease it — and an IncomeTax executed afterwards computes each node's tax
base from that reduced net amount (deducting only when `int(net·r)` is
positive), not from the gross amount distributed. -/
theorem claim_C10 (s0 : Simulator) (L : List (Nat × Int)) (r : ℚ)
    (hz : ∀ i, i < numNodes s0 → nodeAdded s0 i = 0)
    (hL : ∀ p ∈ L, p.1 < numNodes s0) (hd : idsDense s0) :
    (∀ i, nodeAdded (applyAdds L s0) i = netSum L i) ∧
    (∀ i, i < numNodes s0 →
      nodeRes (applyIncomeTax r (applyAdds L s0)) i
        = nodeRes (applyAdds L s0) i
          - (if 0 < pyTruncMul (netSum L i) r then pyTruncMul (netSum L i) r else 0)) := by
  obtain ⟨e1, e2, e3, e4, e5, e6, e7, e8, e9⟩ := applyAdds_spec L s0 hL
  have hadded : ∀ i, nodeAdded (applyAdds L s0) i = netSum L i := by
    intro i
    rw [e3 i]
    by_cases hi : i < numNodes s0
    · rw [hz i hi]
      ring
    · rw [nodeAdded_beyond s0 i (by omega),
        netSum_zero_of_ge L (numNodes s0) i hL (by omega)]
      ring
  refine ⟨hadded, ?_⟩
  intro i hi
  have hd2 : idsDense (applyAdds L s0) := by
    intro j hj
    rw [e1] at hj
    rw [e5 j]
    exact hd j hj
  obtain ⟨f1, f2, f3, f4, f5, f6, f7, f8⟩ := applyIncomeTax_spec (applyAdds L s0) r hd2
  have h := f3 i
  rw [if_pos (by rw [e1]; exact hi)] at h
  rw [h]
  have hdt : dTax (applyAdds L s0) r i
      = if 0 < pyTruncMul (netSum L i) r then pyTruncMul (netSum L i) r else 0 := by
    unfold dTax
    rw [hadded i]
  rw [hdt]

theorem claim_C10_witness :
    ((∀ i, i < numNodes simStart1 → nodeAdded simStart1 i = 0) ∧
      (∀ p ∈ [((0 : Nat), (20 : Int)), (0, -1)], p.1 < numNodes simStart1) ∧
      idsDense simStart1) ∧
    ((∀ i, nodeAdded (applyAdds [(0, 20), (0, -1)] simStart1) i
        = netSum [(0, 20), (0, -1)] i) ∧
    (∀ i, i < numNodes simStart1 →
      nodeRes (applyIncomeTax (mkRat 1 2) (applyAdds [(0, 20), (0, -1)] simStart1)) i
        = nodeRes (applyAdds [(0, 20), (0, -1)] simStart1) i
          - (if 0 < pyTruncMul (netSum [(0, 20), (0, -1)] i) (mkRat 1 2)
              then pyTruncMul (netSum [(0, 20), (0, -1)] i) (mkRat 1 2) else 0))) :=
  ⟨⟨by decide, by decide, by decide⟩,
    claim_C10 simStart1 [(0, 20), (0, -1)] (mkRat 1 2) (by decide) (by decide) (by decide)⟩
